import Mathlib

/-!
MSH: tokenizers, redirect scan and command dispatch.

A shallow embedding of `src/msh.c` and theorems about it.

Conventions of the embedding.

* A C string is the list of the characters stored before its terminator.
  `cstr` reads a C string from a list of memory cells: it stops at the first
  `NUL`.  Every function that receives a `char *` reads its argument through
  `cstr`, as the C code stops at the terminator.
* The accumulation buffer of `explodeByTag` is a memory `Nat → Char`
  (offset to cell content).  `malloc` does not initialise it, so the initial
  content is a parameter `init` of the model.
* The entries of a token array are strings (`Str`), so `strdup` of an entry is the
  entry itself.
* Counters (`int i`, `int pos`, `size_t tokenCount`, ...) are natural
  numbers: lines are far shorter than `2 ^ 31` characters.
* The input of `readline` and `runfile` is the list of the characters still unread;
  `getchar`/`fgetc` take its head and give `EOF` when it is empty.  `char` is signed, as
  on x86, so the byte 255 read into a `char` compares equal to `EOF` (`EOFCHAR`).
* Writes into a line buffer are logged as `BufWrite` values that carry the size the
  buffer is allocated with at that moment; accesses of the redirect scan to `args` are
  logged as `ArgAccess` values.
* Allocation never fails and `fork` succeeds; whether a redirect target can be opened
  is left open (`Streams` records the files that `BEGIN_REDIRECT` tries to open).
-/

namespace MSH

/-- A string: the characters before the terminator. -/
abbrev Str := List Char

/-- The string terminator `'\0'`. -/
def NUL : Char := Char.ofNat 0

/-- The separator `' '` that `runCmd` passes to `explodeByTag`. -/
def SPACE : Char := Char.ofNat 32

/-- The tag character (double quote, code 34) that `runCmd` passes to `explodeByTag`. -/
def DQUOTE : Char := Char.ofNat 34

/-- `#define CHUNK_SIZE 256`. -/
def CHUNK_SIZE : Nat := 256

/-- `isspace` of `<ctype.h>` in the C locale: space, `\t`, `\n`, `\v`, `\f`, `\r`. -/
def isspace (c : Char) : Bool :=
  c = ' ' || c = '\t' || c = '\n' || c = Char.ofNat 11 || c = Char.ofNat 12 || c = '\r'

/-- Read a C string from memory cells: the cells before the first `NUL`. -/
def cstr (m : List Char) : Str := m.takeWhile (fun c => c != NUL)

/-- `strcmp(a, b) == 0`: the two C strings are equal. -/
def streq (a b : List Char) : Bool := cstr a = cstr b

/-- The loop `while (end > str && isspace(*end)) end--;` of `trim`, on the offset
`end - str`: it returns the final offset. -/
def trimEnd (str : Str) : Nat → Nat
  | 0 => 0
  | e + 1 => if isspace (str.getD (e + 1) NUL) then trimEnd str e else e + 1

/-- `trim` (msh.c 137-157): skip leading whitespace; if nothing is left return the
empty string; otherwise walk `end` back from the last character while it is above
`str` and on whitespace, and terminate the string after `end`. -/
def trim (s : List Char) : Str :=
  let str := (cstr s).dropWhile isspace
  if str = [] then []
  else str.take (trimEnd str (str.length - 1) + 1)

/-- `strtok_r(s, delim, &save)` of the C library on the not yet consumed rest `s`:
skip leading delimiter characters; if nothing is left return `none` (NULL);
otherwise the token runs up to the next delimiter character, and `save` is what
follows that delimiter (or the empty rest at the end of the string). -/
def strtok_r (s : Str) (delim : Str) : Option (Str × Str) :=
  let start := s.dropWhile (fun c => decide (c ∈ delim))
  if start = [] then none
  else
    some (start.takeWhile (fun c => !decide (c ∈ delim)),
          (start.dropWhile (fun c => !decide (c ∈ delim))).drop 1)

/-- The `while (current != NULL)` loop of `explode` (msh.c 228-244).  `save` is the
rest of the duplicate that `strtok_r` has not consumed; every token is trimmed and
appended.  `none` only when the fuel runs out. -/
def explodeLoop (delim : Str) : Nat → Str → List Str → Option (List Str)
  | 0, _, _ => none
  | fuel + 1, save, tokenList =>
    match strtok_r save delim with
    | none => some tokenList
    | some (current, save') => explodeLoop delim fuel save' (tokenList ++ [trim current])

/-- The result of a tokenizer: the returned array (`none` is the NULL pointer, returned
when there is no token) and the value stored in `*numTokens`. -/
structure TokenArray where
  tokenList : Option (List Str)
  numTokens : Nat
deriving DecidableEq, Repr

/-- Lines 246-260 and 376-390: a list without tokens is freed and NULL is returned,
and the count is stored. -/
def finish (tokens : List Str) : TokenArray :=
  { tokenList := if tokens.length = 0 then none else some tokens,
    numTokens := tokens.length }

/-- `explode` (msh.c 221-261).  Each `strtok_r` call consumes at least one character,
so `length + 1` rounds are enough. -/
def explode (string : List Char) (delim : List Char) : Option TokenArray :=
  (explodeLoop (cstr delim) ((cstr string).length + 1) (cstr string) []).map finish

/-- `buffer[i] = c`. -/
def poke (buffer : Nat → Char) (i : Nat) (c : Char) : Nat → Char :=
  fun j => if j = i then c else buffer j

/-- `memset(buffer, 0, n)`. -/
def memset0 (buffer : Nat → Char) (n : Nat) : Nat → Char :=
  fun j => if j < n then NUL else buffer j

/-- The C string at the start of `buffer`, when `buffer[n]` is known to be `NUL`. -/
def readStr (buffer : Nat → Char) (n : Nat) : Str :=
  cstr ((List.range (n + 1)).map buffer)

/-- The local variables of `explodeByTag` that the loop changes. `tokenCount` is the
length of `tokenList`. -/
structure TokState where
  tokenList : List Str
  buffer : Nat → Char
  bufSize : Nat
  bTag : Bool
  pos : Nat

/-- `buffer[pos++] = read;`. -/
def TokState.append (st : TokState) (read : Char) : TokState :=
  { st with buffer := poke st.buffer st.pos read, pos := st.pos + 1 }

/-- Lines 326-335: terminate the buffer, push its trimmed copy, clear `bufSize + 1`
bytes, shrink back to `CHUNK_SIZE`, reset `pos`. -/
def TokState.flush (st : TokState) : TokState :=
  let buffer := poke st.buffer st.pos NUL
  { tokenList := st.tokenList ++ [trim (readStr buffer st.pos)],
    buffer := memset0 buffer (st.bufSize + 1),
    bufSize := CHUNK_SIZE,
    bTag := st.bTag,
    pos := 0 }

/-- One round of the `for` loop of `explodeByTag` (msh.c 298-364) on character `read`. -/
def explodeStep (separator openTag closeTag : Char) (bRemoveTag : Bool)
    (st : TokState) (read : Char) : TokState :=
  let st1 :=
    if !st.bTag then
      if read = openTag then
        { (if !bRemoveTag then st.append read else st) with bTag := true }
      else if read = separator then
        st.flush
      else
        st.append read
    else
      if read = closeTag then
        { (if !bRemoveTag then st.append read else st) with bTag := false }
      else
        st.append read
  if st1.pos = st1.bufSize then { st1 with bufSize := st1.bufSize + CHUNK_SIZE } else st1

/-- The state at the head of the loop of `explodeByTag`: no token, a fresh buffer of
`CHUNK_SIZE` bytes with content `init`. -/
def tokInit (init : Nat → Char) : TokState :=
  { tokenList := [], buffer := init, bufSize := CHUNK_SIZE, bTag := false, pos := 0 }

/-- The state after the `for` loop of `explodeByTag`, which runs over the characters
before the terminator. -/
def explodeScan (init : Nat → Char) (string : List Char)
    (separator openTag closeTag : Char) (bRemoveTag : Bool) : TokState :=
  (cstr string).foldl (explodeStep separator openTag closeTag bRemoveTag) (tokInit init)

/-- Lines 367-374: when `buffer[0] != 0` the buffer is terminated at `pos` and its trimmed
copy is the last token. -/
def finalFlush (st : TokState) : List Str :=
  if st.buffer 0 != NUL then
    st.tokenList ++ [trim (readStr (poke st.buffer st.pos NUL) st.pos)]
  else st.tokenList

/-- The tokens of `explodeByTag`, in order. -/
def explodeByTagTokens (init : Nat → Char) (string : List Char)
    (separator openTag closeTag : Char) (bRemoveTag : Bool) : List Str :=
  finalFlush (explodeScan init string separator openTag closeTag bRemoveTag)

/-- `explodeByTag` (msh.c 277-391). -/
def explodeByTag (init : Nat → Char) (string : List Char)
    (separator openTag closeTag : Char) (bRemoveTag : Bool) : TokenArray :=
  finish (explodeByTagTokens init string separator openTag closeTag bRemoveTag)

/-- The handlers of the builtin commands. -/
inductive Builtin
  | builtin_cd
  | builtin_today
  | builtin_help
deriving DecidableEq, Repr

/-- `func_table` (msh.c 105-109). -/
def func_table : List (Str × Builtin) :=
  [("cd".toList, Builtin.builtin_cd),
   ("today".toList, Builtin.builtin_today),
   ("help".toList, Builtin.builtin_help)]

/-- `func_lookup` (msh.c 112-131): NULL for a null name, else the handler of the first
table entry whose name compares equal, else NULL. -/
def func_lookup (name : Option (List Char)) : Option Builtin :=
  match name with
  | none => none
  | some n => (func_table.find? (fun p => streq n p.1)).map (fun p => p.2)

/-- The variables of the redirect scan of `runCmd`: the `args` array (with its
null entries) and the two filenames. -/
structure ScanState where
  args : List (Option Str)
  inFile : Option Str
  outFile : Option Str
deriving DecidableEq, Repr

/-- The token `"<"`. -/
def LT : Str := [Char.ofNat 60]

/-- The token `">"`. -/
def GT : Str := [Char.ofNat 62]

/-- The loop `for (tk = 0; tk < tokenCount; tk++)` of `runCmd` (msh.c 427-445) from
index `tk` on.  `none` is undefined behaviour: a null pointer handed to `strcmp` or
`strdup` (or, with too little fuel, an unfinished loop).  The fuel bounds the number of
rounds; `tokenCount` rounds are always enough. -/
def scanLoop (tokenCount : Nat) : Nat → Nat → ScanState → Option ScanState
  | 0, tk, st => if tk < tokenCount then none else some st
  | fuel + 1, tk, st =>
    if tk < tokenCount then
      match st.args.getD tk none with
      | none => none
      | some token =>
        if streq LT token then
          match st.args.getD (tk + 1) none with
          | none => none
          | some file =>
            scanLoop tokenCount fuel (tk + 1 + 1)
              { args := (st.args.set tk none).set (tk + 1) none,
                inFile := some file, outFile := st.outFile }
        else if streq GT token then
          match st.args.getD (tk + 1) none with
          | none => none
          | some file =>
            scanLoop tokenCount fuel (tk + 1 + 1)
              { args := (st.args.set tk none).set (tk + 1) none,
                inFile := st.inFile, outFile := some file }
        else scanLoop tokenCount fuel (tk + 1) st
    else some st

/-- Lines 414-445 of `runCmd` on the tokens of the command: the array gets its null
sentinel and is scanned for redirects. -/
def redirectScan (tokens : List Str) : Option ScanState :=
  scanLoop tokens.length tokens.length 0
    { args := tokens.map some ++ [none], inFile := none, outFile := none }

/-- What `execvp(args[0], args)` and the builtins see of `args`: the entries before the
first null. -/
def argv (args : List (Option Str)) : List Str :=
  (args.takeWhile Option.isSome).filterMap id

/-- The files that `BEGIN_REDIRECT(inFile, outFile)` (msh.c 38-60) opens over the
standard descriptors: a stream is redirected when its filename is neither null nor
empty (and the file can be opened).  `none` is a descriptor left untouched. -/
structure Streams where
  stdinFile : Option Str
  stdoutFile : Option Str
deriving DecidableEq, Repr

/-- The tests `if (outFile && strcmp(outFile, ""))` and `if (inFile && strcmp(inFile, ""))`. -/
def beginRedirect (inFile outFile : Option Str) : Streams :=
  { stdinFile := inFile.filter (fun f => !streq f []),
    stdoutFile := outFile.filter (fun f => !streq f []) }

/-- What one call of `runCmd` does. -/
inductive Outcome
  /-- `exit(status)` in the interpreter itself. -/
  | exited (status : Nat)
  /-- No token: nothing is run. -/
  | noTokens
  /-- `pBuiltin(args)` in the interpreter, with `streams` spliced over the standard
  descriptors during the call. -/
  | builtinCall (f : Builtin) (args : List (Option Str)) (inFile outFile : Option Str)
      (streams : Streams)
  /-- `fork`, and in the child `execvp(args[0], args)` with `streams` spliced over the
  standard descriptors. -/
  | childExec (args : List (Option Str)) (inFile outFile : Option Str) (streams : Streams)
  /-- A null pointer was handed to `strcmp` or `strdup`. -/
  | undefinedBehaviour
deriving DecidableEq, Repr

/-- The `args` array and the two filenames at the moment the command is run, when it is
run. -/
def Outcome.scan : Outcome → Option ScanState
  | Outcome.builtinCall _ args inFile outFile _ =>
    some { args := args, inFile := inFile, outFile := outFile }
  | Outcome.childExec args inFile outFile _ =>
    some { args := args, inFile := inFile, outFile := outFile }
  | _ => none

/-- Lines 414-482 of `runCmd`, on the tokens that `explodeByTag` returned.  The builtin
is looked up on `args[0]` before the scan; a builtin is called directly (line 451), an
external command runs in a child inside `RUN_DIRECTED(inFile, outFile, ...)`. -/
def runTokens (tokens : List Str) : Outcome :=
  if tokens.length > 0 then
    let pBuiltin := func_lookup ((tokens.map some ++ [none]).getD 0 none)
    match redirectScan tokens with
    | none => Outcome.undefinedBehaviour
    | some st =>
      match pBuiltin with
      | some f =>
        Outcome.builtinCall f st.args st.inFile st.outFile
          { stdinFile := none, stdoutFile := none }
      | none =>
        Outcome.childExec st.args st.inFile st.outFile (beginRedirect st.inFile st.outFile)
  else Outcome.noTokens

/-- `runCmd` (msh.c 399-493): the command `exit` ends the interpreter with status 0;
anything else is tokenized on spaces with double quotes as tags and dispatched.
`init` is the content of the tokenizer's fresh buffer. -/
def runCmd (init : Nat → Char) (cmd : List Char) : Outcome :=
  if streq "exit".toList cmd then Outcome.exited 0
  else runTokens (explodeByTagTokens init cmd SPACE DQUOTE DQUOTE true)

/-! ## Specification-side functions and proof devices -/

/-- Proof device: the tokenizer state seen as lists. `acc` is the content of the buffer
below `pos`. -/
structure AbsState where
  toks : List Str
  acc : Str
  tag : Bool

/-- Proof device: `explodeStep` on the list view of the state. -/
def absStep (separator openTag closeTag : Char) (bRemoveTag : Bool)
    (a : AbsState) (read : Char) : AbsState :=
  if !a.tag then
    if read = openTag then
      { a with acc := if bRemoveTag then a.acc else a.acc ++ [read], tag := true }
    else if read = separator then
      { toks := a.toks ++ [trim a.acc], acc := [], tag := a.tag }
    else { a with acc := a.acc ++ [read] }
  else
    if read = closeTag then
      { a with acc := if bRemoveTag then a.acc else a.acc ++ [read], tag := false }
    else { a with acc := a.acc ++ [read] }

/-- Proof device: `finalFlush` on the list view; `init0` is the initial content of
`buffer[0]`, which is still there when nothing was ever stored or flushed. -/
def absFinal (init0 : Char) (a : AbsState) : List Str :=
  if a.acc ≠ [] then a.toks ++ [trim a.acc]
  else if a.toks = [] ∧ init0 ≠ NUL then [[]] else a.toks

/-- Proof device: the list view `a` describes the machine state `st`. -/
def Rel (init : Nat → Char) (st : TokState) (a : AbsState) : Prop :=
  st.tokenList = a.toks ∧ st.bTag = a.tag ∧ st.pos = a.acc.length ∧
  (∀ i, i < a.acc.length → st.buffer i = a.acc.getD i NUL) ∧
  (∀ c ∈ a.acc, c ≠ NUL) ∧
  (a.acc = [] → st.buffer 0 = if a.toks = [] then init 0 else NUL)

/-- A word: a non-empty string without whitespace, double quote or terminator. -/
def Word (w : Str) : Prop :=
  w ≠ [] ∧ ∀ x ∈ w, isspace x = false ∧ x ≠ DQUOTE ∧ x ≠ NUL

instance : DecidablePred Word := fun w => by
  unfold Word
  infer_instance

/-- Spec side of C2: naive whitespace splitting with the empty fields removed, the
maximal runs of non-whitespace characters in order. -/
def naiveSplit (s : Str) : List Str :=
  (s.splitOnP isspace).filter (fun f => decide (f ≠ []))

/-- Proof device: the tokens that the list machine still emits from buffer content `acc`
on a rest `l` without tag character. `flushed` tells whether a token was pushed before
(then `buffer[0]` was cleared), `i0` is the initial content of `buffer[0]`. -/
def plainTokens (i0 : Char) : Bool → Str → Str → List Str
  | flushed, acc, [] =>
    if acc ≠ [] then [trim acc] else if flushed = false ∧ i0 ≠ NUL then [[]] else []
  | flushed, acc, x :: t =>
    if x = SPACE then trim acc :: plainTokens i0 true [] t
    else plainTokens i0 flushed (acc ++ [x]) t

/-- No whitespace character stands next to a separator. -/
def SepApart (x y : Char) : Prop :=
  (x = SPACE → isspace y = false) ∧ (y = SPACE → isspace x = false)

/-- Spec side of C6: the non-empty substrings of `s` lying between occurrences of the
delimiter `d`, in order. -/
def fieldsBetween (d : Char) (s : Str) : List Str :=
  (s.splitOn d).filter (fun f => decide (f ≠ []))

/-- Proof device: the redirect scan as a recursion over the tokens not yet visited.  It
returns the entries that replace these tokens in `args`, and the two filenames. -/
def scanAbs : List Str → Option Str → Option Str →
    Option (List (Option Str) × Option Str × Option Str)
  | [], i, o => some ([], i, o)
  | [t], i, o =>
    if streq LT t then none else if streq GT t then none else some ([some t], i, o)
  | t :: f :: rest, i, o =>
    if streq LT t then
      (scanAbs rest (some f) o).map (fun r => (none :: none :: r.1, r.2))
    else if streq GT t then
      (scanAbs rest i (some f)).map (fun r => (none :: none :: r.1, r.2))
    else (scanAbs (f :: rest) i o).map (fun r => (some t :: r.1, r.2))

/-- A redirection operator: the token `<` or the token `>`. -/
def isOp (t : Str) : Bool := streq LT t || streq GT t

/-- Every redirection operator that the scanner meets is followed by a token (its
filename).  The scanner skips the filename, so a filename is never met as an operator. -/
def Scannable : List Str → Bool
  | [] => true
  | [t] => !isOp t
  | t :: f :: rest => if isOp t then Scannable rest else Scannable (f :: rest)

/-- Spec side of C3: the token sequence with every operator token that the scanner meets
and its filename token removed, the other words kept in order. -/
def stripRedirects : List Str → List Str
  | [] => []
  | [t] => if isOp t then [] else [t]
  | t :: f :: rest => if isOp t then stripRedirects rest else t :: stripRedirects (f :: rest)

/-- Every operator token of the sequence is followed by a filename token, a token that is
not itself an operator. -/
def filenamesFollow : List Str → Bool
  | [] => true
  | [t] => !isOp t
  | t :: f :: rest => (!isOp t || !isOp f) && filenamesFollow (f :: rest)

/-- Spec side of C9: the token that follows the last occurrence of the operator `op`
(`none` when `op` does not occur before another token). -/
def lastAfter (op : Str) (tokens : List Str) : Option Str :=
  (((tokens.zip tokens.tail).filter (fun p => streq op p.1)).getLast?).map (fun p => p.2)

/-- The input ends inside a tag (an unterminated quote): after the loop of `explodeByTag`
the flag `bTag` is set. -/
def endsInTag (init : Nat → Char) (s : List Char) : Prop :=
  (explodeScan init s SPACE DQUOTE DQUOTE true).bTag = true

instance (init : Nat → Char) (s : List Char) : Decidable (endsInTag init s) := by
  unfold endsInTag
  infer_instance

/-- `#define MAX_CHUNKS 4`. -/
def MAX_CHUNKS : Nat := 4

/-- The value `(char) EOF` that a `char` variable holds after `read = getchar()` at the end
of the input: the byte 255.  With a signed `char` (as on x86) the tests `(int) read == EOF`
and `read != EOF` cannot tell this byte from the end of the input. -/
def EOFCHAR : Char := Char.ofNat 255

/-- What a call of `readline` leaves: the return value, the characters stored in `*line`
(offsets below `pos`; they are null terminated when `pos > 0`), and the unread rest of the
input. -/
structure ReadResult where
  ret : Int
  line : List Char
  rest : List Char
deriving DecidableEq, Repr

/-- The loop of `readline` (msh.c 182-198) and its return (200-209).  The first argument is
the unread input (`getchar` takes its head, and gives `EOF` when it is empty), `line` is
what has been stored so far (`pos` is its length). -/
def readlineLoop : List Char → List Char → Nat → ReadResult
  | [], line, bufSize =>
    if bufSize < CHUNK_SIZE * MAX_CHUNKS then { ret := -1, line := line, rest := [] }
    else { ret := line.length, line := line, rest := [] }
  | read :: rest, line, bufSize =>
    if read ≠ '\n' ∧ bufSize < CHUNK_SIZE * MAX_CHUNKS then
      if read = EOFCHAR then { ret := -1, line := line, rest := rest }
      else
        readlineLoop rest (line ++ [read])
          (if line.length + 1 = bufSize then bufSize + CHUNK_SIZE else bufSize)
    else { ret := line.length, line := line, rest := rest }

/-- `readline` (msh.c 170-210) on the standard input `input`; the prompt is not modelled. -/
def readline (input : List Char) : ReadResult :=
  readlineLoop input [] CHUNK_SIZE

/-- A write into a line buffer, with the size the buffer is allocated with at that moment:
`store pos size` is `buffer[pos] = c`, `clear len size` is `memset(buffer, 0, len)`. -/
inductive BufWrite
  | store (pos size : Nat)
  | clear (len size : Nat)
deriving DecidableEq, Repr

/-- A write stays inside the allocated bytes. -/
def BufWrite.inBounds : BufWrite → Bool
  | BufWrite.store pos size => decide (pos < size)
  | BufWrite.clear len size => decide (len ≤ size)

/-- The writes into `buffer` that one round of the loop of `explodeByTag` performs, branch
by branch as in `explodeStep`: lines 316, 339, 348, 355 store at `pos`, line 326 stores the
terminator at `pos` and line 331 clears `bufSize + 1` bytes.  The buffer is allocated with
`bufSize` bytes throughout the loop (lines 289-290, 332-333, 362-363). -/
def stepWrites (separator openTag closeTag : Char) (bRemoveTag : Bool)
    (st : TokState) (read : Char) : List BufWrite :=
  if !st.bTag then
    if read = openTag then
      (if !bRemoveTag then [BufWrite.store st.pos st.bufSize] else [])
    else if read = separator then
      [BufWrite.store st.pos st.bufSize, BufWrite.clear (st.bufSize + 1) st.bufSize]
    else [BufWrite.store st.pos st.bufSize]
  else
    if read = closeTag then
      (if !bRemoveTag then [BufWrite.store st.pos st.bufSize] else [])
    else [BufWrite.store st.pos st.bufSize]

/-- The writes of the loop of `explodeByTag` from state `st` on. -/
def loopWrites (separator openTag closeTag : Char) (bRemoveTag : Bool) :
    List Char → TokState → List BufWrite
  | [], _ => []
  | read :: rest, st =>
    stepWrites separator openTag closeTag bRemoveTag st read ++
      loopWrites separator openTag closeTag bRemoveTag rest
        (explodeStep separator openTag closeTag bRemoveTag st read)

/-- All writes of `explodeByTag` into its buffer, in order: those of the loop, then the
terminator of the last flush (lines 371-372, after the buffer was reallocated with
`pos + 1` bytes). -/
def explodeWrites (init : Nat → Char) (string : List Char)
    (separator openTag closeTag : Char) (bRemoveTag : Bool) : List BufWrite :=
  let st := explodeScan init string separator openTag closeTag bRemoveTag
  loopWrites separator openTag closeTag bRemoveTag (cstr string) (tokInit init) ++
    (if st.buffer 0 != NUL then [BufWrite.store st.pos (st.pos + 1)] else [])

/-- The loop `for (i = 0; i < numCommands; i++) runCmd(commandQueue[i], ...)` of `runfile`
and `processInput`: it tells whether the interpreter is still running after the queue (a
command `exit`, or undefined behaviour, ends it).  `init` is the content of the fresh
buffer of each `explodeByTag` call. -/
def runQueue (init : Nat → Char) : List Str → Bool
  | [] => true
  | cmd :: rest =>
    match runCmd init cmd with
    | Outcome.exited _ => false
    | Outcome.undefinedBehaviour => false
    | _ => runQueue init rest

/-- The loop of `runfile` (msh.c 508-548), as the list of its writes into `pOut`.  The
first argument is the unread file (`fgetc` gives `EOF` when it is empty), `pOut` is the
line stored so far (`pos` is its length), `bufSize` the capacity the code tracks and
`size` the number of bytes `pOut` was last allocated with.  At a newline the buffer is
reallocated with `pos + 1` bytes, terminated, run, and cleared; `bufSize` is left as it
is.  Any other character is stored at `pos`, and the buffer grows by `CHUNK_SIZE` when
`pos` reaches `bufSize`. -/
def runfileLoop (init : Nat → Char) : List Char → List Char → Nat → Nat → List BufWrite
  | [], _, _, _ => []
  | read :: rest, pOut, bufSize, size =>
    if read = EOFCHAR then []
    else if read = '\n' then
      BufWrite.store pOut.length (pOut.length + 1) ::
        match explode pOut [';'] with
        | none => []
        | some queue =>
          if runQueue init (queue.tokenList.getD []) then
            BufWrite.clear (pOut.length + 1) (pOut.length + 1) ::
              runfileLoop init rest [] bufSize (pOut.length + 1)
          else []
    else
      BufWrite.store pOut.length size ::
        runfileLoop init rest (pOut ++ [read])
          (if pOut.length + 1 = bufSize then bufSize + CHUNK_SIZE else bufSize)
          (if pOut.length + 1 = bufSize then bufSize + CHUNK_SIZE else size)

/-- `runfile` (msh.c 500-551) on the content of the batch file: the writes into `pOut`,
which starts with `CHUNK_SIZE` bytes. -/
def runfile (init : Nat → Char) (file : List Char) : List BufWrite :=
  runfileLoop init file [] CHUNK_SIZE CHUNK_SIZE

/-- An access of the redirect scan to the `args` array: `read idx val` reads `args[idx]` and
finds `val` there, `write idx` overwrites `args[idx]` with NULL. -/
inductive ArgAccess
  | read (idx : Nat) (val : Option Str)
  | write (idx : Nat)
deriving DecidableEq, Repr

/-- The accesses to `args` that the loop of `scanLoop` performs from index `tk` on, branch
by branch as in `scanLoop`: `args[tk]` is read for the comparison (line 429); at an
operator `args[tk + 1]` is read for `strdup` (lines 433, 440) and both entries are
overwritten (lines 434-435, 441-442). -/
def scanAccesses (tokenCount : Nat) : Nat → Nat → ScanState → List ArgAccess
  | 0, _, _ => []
  | fuel + 1, tk, st =>
    if tk < tokenCount then
      ArgAccess.read tk (st.args.getD tk none) ::
        match st.args.getD tk none with
        | none => []
        | some token =>
          if streq LT token then
            ArgAccess.read (tk + 1) (st.args.getD (tk + 1) none) ::
              match st.args.getD (tk + 1) none with
              | none => []
              | some file =>
                ArgAccess.write tk :: ArgAccess.write (tk + 1) ::
                  scanAccesses tokenCount fuel (tk + 1 + 1)
                    { args := (st.args.set tk none).set (tk + 1) none,
                      inFile := some file, outFile := st.outFile }
          else if streq GT token then
            ArgAccess.read (tk + 1) (st.args.getD (tk + 1) none) ::
              match st.args.getD (tk + 1) none with
              | none => []
              | some file =>
                ArgAccess.write tk :: ArgAccess.write (tk + 1) ::
                  scanAccesses tokenCount fuel (tk + 1 + 1)
                    { args := (st.args.set tk none).set (tk + 1) none,
                      inFile := st.inFile, outFile := some file }
          else scanAccesses tokenCount fuel (tk + 1) st
    else []

/-- The accesses to `args` of the redirect scan of `runCmd` on the tokens of a command. -/
def redirectAccesses (tokens : List Str) : List ArgAccess :=
  scanAccesses tokens.length tokens.length 0
    { args := tokens.map some ++ [none], inFile := none, outFile := none }

/-- An access is safe for the token sequence `tokens`: its index is below the token
count, and a read finds the token that `explodeByTag` put there. -/
def ArgAccess.safe (tokens : List Str) : ArgAccess → Prop
  | ArgAccess.read idx val => idx < tokens.length ∧ ∃ t, val = some t ∧ tokens[idx]? = some t
  | ArgAccess.write idx => idx < tokens.length

/-! ## Theorems -/

theorem cstr_eq_self {s : List Char} (h : ∀ c ∈ s, c ≠ NUL) : cstr s = s := by
  unfold cstr
  rw [List.takeWhile_eq_self_iff]
  intro c hc
  simpa using h c hc

theorem cstr_append_NUL {s : List Char} (h : ∀ c ∈ s, c ≠ NUL) (r : List Char) :
    cstr (s ++ NUL :: r) = s := by
  induction s with
  | nil => simp [cstr]
  | cons a t ih =>
    have ha : a ≠ NUL := h a (by simp)
    have ht : ∀ c ∈ t, c ≠ NUL := fun c hc => h c (by simp [hc])
    have := ih ht
    simp only [cstr] at this ⊢
    simp [List.takeWhile_cons, ha, this]

theorem cstr_noNUL (s : List Char) : ∀ c ∈ cstr s, c ≠ NUL := by
  intro c hc
  have := List.mem_takeWhile_imp hc
  simpa using this

theorem cstr_idem (s : List Char) : cstr (cstr s) = cstr s :=
  cstr_eq_self (cstr_noNUL s)

theorem rel_init (init : Nat → Char) : Rel init (tokInit init) ⟨[], [], false⟩ := by
  simp [Rel, tokInit]

theorem readStr_of_rel {init : Nat → Char} {st : TokState} {a : AbsState}
    (h : Rel init st a) : readStr (poke st.buffer st.pos NUL) st.pos = a.acc := by
  obtain ⟨_, _, hpos, hbuf, hnul, _⟩ := h
  have hmap : (List.range (st.pos + 1)).map (poke st.buffer st.pos NUL) = a.acc ++ [NUL] := by
    apply List.ext_getElem
    · simp [hpos]
    · intro i h1 h2
      simp only [List.length_map, List.length_range] at h1
      simp only [List.getElem_map, List.getElem_range, poke]
      by_cases hi : i = st.pos
      · subst hi
        simp [hpos]
      · have hlt : i < a.acc.length := by omega
        simp only [hi, if_false]
        rw [hbuf i hlt, List.getElem_append_left hlt]
        simp [List.getD_eq_getElem?_getD, hlt]
  unfold readStr
  rw [hmap]
  exact cstr_append_NUL hnul []

theorem rel_append {init : Nat → Char} {st : TokState} {a : AbsState}
    (h : Rel init st a) {c : Char} (hc : c ≠ NUL) :
    Rel init (st.append c) ⟨a.toks, a.acc ++ [c], a.tag⟩ := by
  obtain ⟨htok, htag, hpos, hbuf, hnul, _⟩ := h
  refine ⟨htok, htag, by simp [TokState.append, hpos], ?_, ?_, by simp⟩
  · intro i hi
    simp only [List.length_append, List.length_singleton] at hi
    simp only [TokState.append, poke]
    by_cases h1 : i = st.pos
    · subst h1
      simp [hpos, List.getD_eq_getElem?_getD]
    · have hlt : i < a.acc.length := by omega
      simp only [h1, if_false]
      rw [hbuf i hlt]
      simp [List.getD_eq_getElem?_getD, hlt, List.getElem?_append_left]
  · intro x hx
    rcases List.mem_append.mp hx with hx | hx
    · exact hnul x hx
    · simp at hx; subst hx; exact hc

theorem rel_tag {init : Nat → Char} {st : TokState} {a : AbsState}
    (h : Rel init st a) (t : Bool) :
    Rel init { st with bTag := t } ⟨a.toks, a.acc, t⟩ := by
  obtain ⟨htok, _, hpos, hbuf, hnul, h0⟩ := h
  exact ⟨htok, rfl, hpos, hbuf, hnul, h0⟩

theorem rel_flush {init : Nat → Char} {st : TokState} {a : AbsState}
    (h : Rel init st a) : Rel init st.flush ⟨a.toks ++ [trim a.acc], [], a.tag⟩ := by
  have hr := readStr_of_rel h
  obtain ⟨htok, htag, hpos, hbuf, hnul, h0⟩ := h
  refine ⟨?_, htag, rfl, by simp, by simp, ?_⟩
  · simp [TokState.flush, hr, htok]
  · intro _
    simp [TokState.flush, memset0]

theorem rel_grow {init : Nat → Char} {st : TokState} {a : AbsState}
    (h : Rel init st a) :
    Rel init (if st.pos = st.bufSize then { st with bufSize := st.bufSize + CHUNK_SIZE } else st)
      a := by
  split
  · exact h
  · exact h

theorem rel_step {init : Nat → Char} {st : TokState} {a : AbsState}
    (h : Rel init st a) {c : Char} (hc : c ≠ NUL) (sep o cl : Char) (rm : Bool) :
    Rel init (explodeStep sep o cl rm st c) (absStep sep o cl rm a c) := by
  have htag : st.bTag = a.tag := h.2.1
  unfold explodeStep
  apply rel_grow
  unfold absStep
  rw [htag]
  cases hta : a.tag <;> simp only [Bool.not_false, Bool.not_true, if_true, if_false]
  · by_cases h1 : c = o
    · simp only [h1, if_true]
      cases rm
      · simpa using rel_tag (rel_append h (h1 ▸ hc)) true
      · simpa using rel_tag h true
    · simp only [h1, if_false]
      by_cases h2 : c = sep
      · simp only [h2, if_true]
        have := rel_flush h
        rw [hta] at this
        exact this
      · simp only [h2, if_false]
        have := rel_append h hc
        rw [hta] at this
        exact this
  · by_cases h1 : c = cl
    · simp only [h1, if_true]
      cases rm
      · simpa using rel_tag (rel_append h (h1 ▸ hc)) false
      · simpa using rel_tag h false
    · simp only [h1, if_false]
      have := rel_append h hc
      rw [hta] at this
      exact this

theorem rel_foldl {init : Nat → Char} (sep o cl : Char) (rm : Bool) (l : List Char) :
    ∀ {st : TokState} {a : AbsState}, Rel init st a → (∀ c ∈ l, c ≠ NUL) →
      Rel init (l.foldl (explodeStep sep o cl rm) st) (l.foldl (absStep sep o cl rm) a) := by
  induction l with
  | nil => intro st a h _; exact h
  | cons c t ih =>
    intro st a h hl
    simp only [List.foldl_cons]
    exact ih (rel_step h (hl c (by simp)) sep o cl rm) (fun x hx => hl x (by simp [hx]))

theorem finalFlush_of_rel {init : Nat → Char} {st : TokState} {a : AbsState}
    (h : Rel init st a) : finalFlush st = absFinal (init 0) a := by
  have hr := readStr_of_rel h
  obtain ⟨htok, htag, hpos, hbuf, hnul, h0⟩ := h
  unfold finalFlush absFinal
  rw [hr, htok]
  by_cases hacc : a.acc = []
  · have hb := h0 hacc
    by_cases ht : a.toks = []
    · simp [hacc, ht, hb, trim, cstr]
    · simp [hacc, ht, hb]
  · have hlen : 0 < a.acc.length := List.length_pos.mpr hacc
    have hb := hbuf 0 hlen
    have hne : st.buffer 0 ≠ NUL := by
      rw [hb]
      apply hnul
      simp [List.getD_eq_getElem?_getD, hlen]
    simp [hacc, hne]

/-- The tokens of `explodeByTag` are those of the list view of the machine. -/
theorem explodeByTagTokens_eq_abs (init : Nat → Char) (s : List Char) (sep o cl : Char)
    (rm : Bool) :
    explodeByTagTokens init s sep o cl rm =
      absFinal (init 0) ((cstr s).foldl (absStep sep o cl rm) ⟨[], [], false⟩) := by
  unfold explodeByTagTokens explodeScan
  exact finalFlush_of_rel (rel_foldl sep o cl rm (cstr s) (rel_init init) (cstr_noNUL s))

theorem trimEnd_le (str : Str) (e : Nat) : trimEnd str e ≤ e := by
  induction e with
  | zero => simp [trimEnd]
  | succ n ih =>
    unfold trimEnd
    split
    · omega
    · omega

theorem trimEnd_append (l r : Str) (e : Nat) (h : e < l.length) :
    trimEnd (l ++ r) e = trimEnd l e := by
  induction e with
  | zero => simp [trimEnd]
  | succ n ih =>
    have hn : n < l.length := by omega
    unfold trimEnd
    rw [ih hn]
    simp [List.getD_eq_getElem?_getD, List.getElem?_append_left, h]

theorem take_trimEnd (a : Char) (ha : isspace a = false) (t : Str) :
    (a :: t).take (trimEnd (a :: t) t.length + 1) = (a :: t).rdropWhile isspace := by
  induction t using List.reverseRecOn with
  | nil => simp [trimEnd, List.rdropWhile, ha]
  | append_singleton t x ih =>
    have hcons : a :: (t ++ [x]) = (a :: t) ++ [x] := by simp
    rw [hcons]
    have hlen : (t ++ [x]).length = t.length + 1 := by simp
    rw [hlen]
    unfold trimEnd
    have hget : ((a :: t) ++ [x]).getD (t.length + 1) NUL = x := by
      simp [List.getD_eq_getElem?_getD]
    rw [hget]
    cases hx : isspace x
    · simp only [Bool.false_eq_true, if_false]
      rw [List.rdropWhile_concat_neg _ _ _ (by simp [hx])]
      apply List.take_of_length_le
      simp
    · simp only [if_true]
      rw [List.rdropWhile_concat_pos _ _ _ hx]
      rw [trimEnd_append (a :: t) [x] t.length (by simp)]
      rw [List.take_append_of_le_length]
      · exact ih
      · have := trimEnd_le (a :: t) t.length
        simp
        omega

/-- What `trim` computes: the string without its leading and its trailing whitespace. -/
theorem trim_eq (s : List Char) :
    trim s = ((cstr s).dropWhile isspace).rdropWhile isspace := by
  unfold trim
  simp only
  split
  · rename_i h
    rw [h]
    simp [List.rdropWhile]
  · rename_i h
    have hhead := List.head_dropWhile_not isspace (cstr s) h
    generalize (cstr s).dropWhile isspace = str at h hhead
    cases str with
    | nil => exact absurd rfl h
    | cons a t =>
      simp only [List.head_cons] at hhead
      simp only [List.length_cons, Nat.add_sub_cancel]
      exact take_trimEnd a hhead t

theorem trim_nil : trim [] = [] := by
  simp [trim, cstr]

theorem trim_eq_self {s : List Char} (hnul : ∀ c ∈ s, c ≠ NUL)
    (hhead : ∀ c, s.head? = some c → isspace c = false)
    (hlast : ∀ c, s.getLast? = some c → isspace c = false) : trim s = s := by
  rw [trim_eq, cstr_eq_self hnul]
  have h1 : s.dropWhile isspace = s := by
    cases s with
    | nil => rfl
    | cons a t =>
      have := hhead a (by simp)
      simp [List.dropWhile_cons, this]
  rw [h1, List.rdropWhile_eq_self_iff]
  intro hl
  have := hlast (s.getLast hl) (List.getLast?_eq_getLast s hl)
  simp [this]

theorem trim_word {w : List Char} (hnul : ∀ c ∈ w, c ≠ NUL)
    (hws : ∀ c ∈ w, isspace c = false) : trim w = w := by
  apply trim_eq_self hnul
  · intro c hc
    exact hws c (List.mem_of_mem_head? hc)
  · intro c hc
    exact hws c (List.mem_of_mem_getLast? hc)

theorem isspace_SPACE : isspace SPACE = true := by decide

theorem SPACE_ne_DQUOTE : SPACE ≠ DQUOTE := by decide

theorem SPACE_ne_NUL : SPACE ≠ NUL := by decide

theorem DQUOTE_ne_NUL : DQUOTE ≠ NUL := by decide

theorem Word.ne_SPACE {w : Str} (h : Word w) : ∀ x ∈ w, x ≠ SPACE := by
  intro x hx hsp
  have := (h.2 x hx).1
  rw [hsp, isspace_SPACE] at this
  exact absurd this (by decide)

theorem Word.trim {w : Str} (h : Word w) : trim w = w :=
  trim_word (fun c hc => (h.2 c hc).2.2) (fun c hc => (h.2 c hc).1)

/-- Outside a tag, characters that are neither separator nor tag are appended. -/
theorem foldl_plain (w : Str) (hsp : ∀ x ∈ w, x ≠ SPACE) (hq : ∀ x ∈ w, x ≠ DQUOTE) :
    ∀ (toks : List Str) (acc : Str),
      w.foldl (absStep SPACE DQUOTE DQUOTE true) ⟨toks, acc, false⟩ = ⟨toks, acc ++ w, false⟩ := by
  induction w with
  | nil => intro toks acc; simp
  | cons x t ih =>
    intro toks acc
    have h1 : x ≠ SPACE := hsp x (by simp)
    have h2 : x ≠ DQUOTE := hq x (by simp)
    simp only [List.foldl_cons]
    have hstep : absStep SPACE DQUOTE DQUOTE true ⟨toks, acc, false⟩ x = ⟨toks, acc ++ [x], false⟩ := by
      simp [absStep, h1, h2]
    rw [hstep, ih (fun y hy => hsp y (by simp [hy])) (fun y hy => hq y (by simp [hy]))]
    simp

/-- Inside a tag, every character but the closing tag is appended. -/
theorem foldl_intag (w : Str) (hq : ∀ x ∈ w, x ≠ DQUOTE) :
    ∀ (toks : List Str) (acc : Str),
      w.foldl (absStep SPACE DQUOTE DQUOTE true) ⟨toks, acc, true⟩ = ⟨toks, acc ++ w, true⟩ := by
  induction w with
  | nil => intro toks acc; simp
  | cons x t ih =>
    intro toks acc
    have h2 : x ≠ DQUOTE := hq x (by simp)
    simp only [List.foldl_cons]
    have hstep : absStep SPACE DQUOTE DQUOTE true ⟨toks, acc, true⟩ x = ⟨toks, acc ++ [x], true⟩ := by
      simp [absStep, h2]
    rw [hstep, ih (fun y hy => hq y (by simp [hy]))]
    simp

theorem step_sep (toks : List Str) (acc : Str) :
    absStep SPACE DQUOTE DQUOTE true ⟨toks, acc, false⟩ SPACE = ⟨toks ++ [trim acc], [], false⟩ := by
  simp [absStep, SPACE_ne_DQUOTE]

theorem step_open (toks : List Str) (acc : Str) :
    absStep SPACE DQUOTE DQUOTE true ⟨toks, acc, false⟩ DQUOTE = ⟨toks, acc, true⟩ := by
  simp [absStep]

theorem step_close (toks : List Str) (acc : Str) :
    absStep SPACE DQUOTE DQUOTE true ⟨toks, acc, true⟩ DQUOTE = ⟨toks, acc, false⟩ := by
  simp [absStep]

/-- C1: for non-empty words a, b, c, d without whitespace and without double quote, the
string `a "b c" d` is tokenized (separator space, tags double quote, tags removed) into
exactly the three tokens a, `b c`, d, and numTokens is 3. -/
theorem explodeByTag_quoted_span (init : Nat → Char) (a b c d : Str)
    (ha : Word a) (hb : Word b) (hc : Word c) (hd : Word d) :
    explodeByTag init (a ++ [SPACE, DQUOTE] ++ b ++ [SPACE] ++ c ++ [DQUOTE, SPACE] ++ d)
        SPACE DQUOTE DQUOTE true
      = { tokenList := some [a, b ++ [SPACE] ++ c, d], numTokens := 3 } := by
  have hnul : ∀ x ∈ a ++ [SPACE, DQUOTE] ++ b ++ [SPACE] ++ c ++ [DQUOTE, SPACE] ++ d,
      x ≠ NUL := by
    intro x hx
    have hA : x ∈ a → x ≠ NUL := fun h => (ha.2 x h).2.2
    have hB : x ∈ b → x ≠ NUL := fun h => (hb.2 x h).2.2
    have hC : x ∈ c → x ≠ NUL := fun h => (hc.2 x h).2.2
    have hD : x ∈ d → x ≠ NUL := fun h => (hd.2 x h).2.2
    have hS : x = SPACE → x ≠ NUL := fun h => h ▸ SPACE_ne_NUL
    have hQ : x = DQUOTE → x ≠ NUL := fun h => h ▸ DQUOTE_ne_NUL
    simp only [List.mem_append, List.mem_cons, List.mem_singleton, List.not_mem_nil,
      or_false] at hx
    tauto
  have hbc : trim (b ++ [SPACE] ++ c) = b ++ [SPACE] ++ c := by
    apply trim_eq_self
    · intro x hx
      have hB : x ∈ b → x ≠ NUL := fun h => (hb.2 x h).2.2
      have hC : x ∈ c → x ≠ NUL := fun h => (hc.2 x h).2.2
      have hS : x = SPACE → x ≠ NUL := fun h => h ▸ SPACE_ne_NUL
      simp only [List.mem_append, List.mem_singleton] at hx
      tauto
    · intro x hx
      obtain ⟨b0, bt, rfl⟩ := List.exists_cons_of_ne_nil hb.1
      simp at hx
      subst hx
      exact (hb.2 b0 (by simp)).1
    · intro x hx
      rw [List.getLast?_append_of_ne_nil _ hc.1] at hx
      exact (hc.2 x (List.mem_of_mem_getLast? hx)).1
  unfold explodeByTag
  rw [explodeByTagTokens_eq_abs, cstr_eq_self hnul]
  simp only [List.foldl_append, List.foldl_cons, List.foldl_nil]
  rw [foldl_plain a ha.ne_SPACE (fun x hx => (ha.2 x hx).2.1), step_sep, step_open,
    foldl_intag b (fun x hx => (hb.2 x hx).2.1)]
  have hin : absStep SPACE DQUOTE DQUOTE true ⟨[] ++ [trim ([] ++ a)], [] ++ b, true⟩ SPACE
      = ⟨[] ++ [trim ([] ++ a)], [] ++ b ++ [SPACE], true⟩ := by
    simp [absStep, SPACE_ne_DQUOTE]
  rw [hin, foldl_intag c (fun x hx => (hc.2 x hx).2.1), step_close, step_sep,
    foldl_plain d hd.ne_SPACE (fun x hx => (hd.2 x hx).2.1)]
  simp only [List.nil_append, absFinal, ha.trim, hd.trim, hbc]
  simp [hd.1, finish]

/-- Witness of C1 on the command `ls "my file" x`: a = ls, b = my, c = file, d = x. -/
theorem explodeByTag_quoted_span_witness :
    Word ['l', 's'] ∧ Word ['m', 'y'] ∧ Word ['f', 'i', 'l', 'e'] ∧ Word ['x'] ∧
    explodeByTag (fun _ => 'z')
        (['l', 's'] ++ [SPACE, DQUOTE] ++ ['m', 'y'] ++ [SPACE] ++ ['f', 'i', 'l', 'e']
          ++ [DQUOTE, SPACE] ++ ['x'])
        SPACE DQUOTE DQUOTE true
      = { tokenList := some [['l', 's'], ['m', 'y'] ++ [SPACE] ++ ['f', 'i', 'l', 'e'], ['x']],
          numTokens := 3 } :=
  ⟨by decide, by decide, by decide, by decide,
    explodeByTag_quoted_span (fun _ => 'z') ['l', 's'] ['m', 'y'] ['f', 'i', 'l', 'e'] ['x']
      (by decide) (by decide) (by decide) (by decide)⟩

theorem modifyHead_nil_append (L : List Str) :
    List.modifyHead (fun f => [] ++ f) L = L := by
  cases L <;> simp

theorem modifyHead_self (L : List Str) : List.modifyHead (fun f => f) L = L := by
  cases L <;> simp

/-- On a string without tag character whose only whitespace is single separators, the
list machine produces the non-empty whitespace fields. -/
theorem abs_naive (i0 : Char) (l : Str) :
    ∀ (toks : List Str) (acc : Str),
      (∀ x ∈ l, x ≠ DQUOTE) → (∀ x ∈ l, x ≠ NUL) →
      (∀ x ∈ l, isspace x = true → x = SPACE) →
      (∀ x ∈ acc, isspace x = false ∧ x ≠ NUL) →
      (acc = [] → l.head? ≠ some SPACE) →
      List.Chain' (fun x y => ¬(x = SPACE ∧ y = SPACE)) l →
      (toks ≠ [] ∨ acc ≠ [] ∨ l ≠ []) →
      absFinal i0 (l.foldl (absStep SPACE DQUOTE DQUOTE true) ⟨toks, acc, false⟩)
        = toks ++ ((l.splitOnP isspace).modifyHead (fun f => acc ++ f)).filter
            (fun f => decide (f ≠ [])) := by
  induction l with
  | nil =>
    intro toks acc _ _ _ hacc _ _ hne
    have htrim : trim acc = acc :=
      trim_word (fun c hc => (hacc c hc).2) (fun c hc => (hacc c hc).1)
    by_cases h : acc = []
    · have ht : toks ≠ [] := by
        rcases hne with h1 | h1 | h1
        · exact h1
        · exact absurd h h1
        · exact absurd rfl h1
      simp [absFinal, h, ht]
    · simp [absFinal, h, htrim]
  | cons x t ih =>
    intro toks acc hq hnul hws hacc hhead hadj hne
    have hq' : ∀ y ∈ t, y ≠ DQUOTE := fun y hy => hq y (by simp [hy])
    have hnul' : ∀ y ∈ t, y ≠ NUL := fun y hy => hnul y (by simp [hy])
    have hws' : ∀ y ∈ t, isspace y = true → y = SPACE := fun y hy => hws y (by simp [hy])
    have hadj' : List.Chain' (fun x y => ¬(x = SPACE ∧ y = SPACE)) t := hadj.tail
    simp only [List.foldl_cons]
    by_cases hx : x = SPACE
    · subst hx
      have haccne : acc ≠ [] := fun h => hhead h (by simp)
      have htrim : trim acc = acc :=
        trim_word (fun c hc => (hacc c hc).2) (fun c hc => (hacc c hc).1)
      have hth : t.head? ≠ some SPACE := by
        cases t with
        | nil => simp
        | cons y t' =>
          intro hy
          simp only [List.head?_cons, Option.some.injEq] at hy
          have := List.chain'_cons.mp hadj
          exact this.1 ⟨rfl, hy⟩
      rw [step_sep, htrim,
        ih (toks ++ [acc]) [] hq' hnul' hws' (by simp) (fun _ => hth) hadj' (Or.inl (by simp))]
      rw [List.splitOnP_cons]
      simp [isspace_SPACE, modifyHead_self, haccne]
    · have hxs : isspace x = false := by
        cases h : isspace x
        · rfl
        · exact absurd (hws x (by simp) h) hx
      have hstep : absStep SPACE DQUOTE DQUOTE true ⟨toks, acc, false⟩ x
          = ⟨toks, acc ++ [x], false⟩ := by
        simp [absStep, hx, hq x (by simp)]
      have hacc' : ∀ y ∈ acc ++ [x], isspace y = false ∧ y ≠ NUL := by
        intro y hy
        rcases List.mem_append.mp hy with h | h
        · exact hacc y h
        · simp at h; subst h; exact ⟨hxs, hnul y (by simp)⟩
      rw [hstep, ih toks (acc ++ [x]) hq' hnul' hws' hacc' (by simp) hadj' (Or.inr (Or.inl (by simp)))]
      rw [List.splitOnP_cons]
      simp [hxs, List.modifyHead_modifyHead, Function.comp_def]

/-- C2, amended: for a non-empty string without tag character whose only whitespace
characters are separators, which does not begin with a separator and has no two adjacent
separators, `explodeByTag` returns the naive whitespace split with empty fields removed. -/
theorem explodeByTag_eq_naiveSplit (init : Nat → Char) (s : Str)
    (hne : s ≠ []) (hnul : ∀ x ∈ s, x ≠ NUL) (hq : ∀ x ∈ s, x ≠ DQUOTE)
    (hws : ∀ x ∈ s, isspace x = true → x = SPACE)
    (hhead : s.head? ≠ some SPACE)
    (hadj : List.Chain' (fun x y => ¬(x = SPACE ∧ y = SPACE)) s) :
    explodeByTag init s SPACE DQUOTE DQUOTE true = finish (naiveSplit s) := by
  unfold explodeByTag
  rw [explodeByTagTokens_eq_abs, cstr_eq_self hnul,
    abs_naive (init 0) s [] [] hq hnul hws (by simp) (fun _ => hhead) hadj
      (Or.inr (Or.inr hne))]
  simp [naiveSplit, modifyHead_self]

/-- Witness of the amended C2 on `ls -l x`. -/
theorem explodeByTag_eq_naiveSplit_witness :
    ['l', 's', ' ', '-', 'l', ' ', 'x'] ≠ [] ∧
    (∀ x ∈ ['l', 's', ' ', '-', 'l', ' ', 'x'], x ≠ NUL) ∧
    (∀ x ∈ ['l', 's', ' ', '-', 'l', ' ', 'x'], x ≠ DQUOTE) ∧
    (∀ x ∈ ['l', 's', ' ', '-', 'l', ' ', 'x'], isspace x = true → x = SPACE) ∧
    ['l', 's', ' ', '-', 'l', ' ', 'x'].head? ≠ some SPACE ∧
    List.Chain' (fun x y => ¬(x = SPACE ∧ y = SPACE)) ['l', 's', ' ', '-', 'l', ' ', 'x'] ∧
    explodeByTag (fun _ => 'z') ['l', 's', ' ', '-', 'l', ' ', 'x'] SPACE DQUOTE DQUOTE true
      = finish (naiveSplit ['l', 's', ' ', '-', 'l', ' ', 'x']) :=
  ⟨by decide, by decide, by decide, by decide, by decide, by simp [SPACE],
    explodeByTag_eq_naiveSplit (fun _ => 'z') ['l', 's', ' ', '-', 'l', ' ', 'x']
      (by decide) (by decide) (by decide) (by decide) (by decide) (by simp [SPACE])⟩

/-- C2 as stated fails: the string `a<TAB>b` has no tag character; whitespace splitting
gives the two fields a and b, while `explodeByTag`, which splits on the separator only,
returns the single token `a<TAB>b`. -/
theorem explodeByTag_ne_naiveSplit_tab :
    (∀ x ∈ ['a', '\t', 'b'], x ≠ DQUOTE) ∧
    naiveSplit ['a', '\t', 'b'] = [['a'], ['b']] ∧
    ∀ init : Nat → Char,
      explodeByTag init ['a', '\t', 'b'] SPACE DQUOTE DQUOTE true
        = { tokenList := some [['a', '\t', 'b']], numTokens := 1 } := by
  refine ⟨by decide, by decide, ?_⟩
  intro init
  unfold explodeByTag
  rw [explodeByTagTokens_eq_abs]
  rfl

theorem abs_plain (i0 : Char) (l : Str) :
    ∀ (toks : List Str) (acc : Str), (∀ x ∈ l, x ≠ DQUOTE) →
      absFinal i0 (l.foldl (absStep SPACE DQUOTE DQUOTE true) ⟨toks, acc, false⟩)
        = toks ++ plainTokens i0 (decide (toks ≠ [])) acc l := by
  induction l with
  | nil =>
    intro toks acc _
    by_cases h : acc = []
    · by_cases ht : toks = []
      · by_cases hi : i0 = NUL <;> simp [absFinal, plainTokens, h, ht, hi]
      · simp [absFinal, plainTokens, h, ht]
    · simp [absFinal, plainTokens, h]
  | cons x t ih =>
    intro toks acc hq
    have hq' : ∀ y ∈ t, y ≠ DQUOTE := fun y hy => hq y (by simp [hy])
    simp only [List.foldl_cons]
    by_cases hx : x = SPACE
    · subst hx
      rw [step_sep, ih _ _ hq']
      simp [plainTokens]
    · have hstep : absStep SPACE DQUOTE DQUOTE true ⟨toks, acc, false⟩ x
          = ⟨toks, acc ++ [x], false⟩ := by
        simp [absStep, hx, hq x (by simp)]
      rw [hstep, ih _ _ hq']
      simp [plainTokens, hx]

theorem plainTokens_ne_nil (i0 : Char) (l : Str) :
    ∀ (fl : Bool) (acc : Str), acc ≠ [] → plainTokens i0 fl acc l ≠ [] := by
  induction l with
  | nil => intro fl acc h; simp [plainTokens, h]
  | cons x t ih =>
    intro fl acc h
    by_cases hx : x = SPACE
    · simp [plainTokens, hx]
    · simp only [plainTokens, hx, if_false]
      exact ih fl (acc ++ [x]) (by simp)

theorem plainTokens_flushed_eq_nil (i0 : Char) (l : Str) :
    plainTokens i0 true [] l = [] ↔ l = [] := by
  cases l with
  | nil => simp [plainTokens]
  | cons x t =>
    by_cases hx : x = SPACE
    · simp [plainTokens, hx]
    · simp only [plainTokens, hx, if_false, List.nil_append]
      have := plainTokens_ne_nil i0 t true [x] (by simp)
      simp [this]

theorem intercalate_cons_eq (sep x : Str) (xs : List Str) :
    List.intercalate sep (x :: xs)
      = if xs = [] then x else x ++ sep ++ List.intercalate sep xs := by
  cases xs with
  | nil => simp [List.intercalate]
  | cons y ys => simp [List.intercalate, List.intersperse]

theorem dropWhile_append_of_all (p : Char → Bool) (a b : Str) (h : ∀ x ∈ a, p x = true) :
    (a ++ b).dropWhile p = b.dropWhile p := by
  induction a with
  | nil => rfl
  | cons x t ih =>
    have hx := h x (by simp)
    simp [List.dropWhile_cons, hx, ih (fun y hy => h y (by simp [hy]))]

theorem dropWhile_of_head (p : Char → Bool) (a : Str)
    (h : ∀ c, a.head? = some c → p c = false) : a.dropWhile p = a := by
  cases a with
  | nil => rfl
  | cons x t => simp [List.dropWhile_cons, h x (by simp)]

theorem rdropWhile_of_last (p : Char → Bool) (a : Str)
    (h : ∀ c, a.getLast? = some c → p c = false) : a.rdropWhile p = a := by
  rw [List.rdropWhile_eq_self_iff]
  intro hl
  simp [h _ (List.getLast?_eq_getLast a hl)]

theorem rdropWhile_append_of_head (p : Char → Bool) (a : Str) (y : Char) (t : Str)
    (hy : p y = false) : (a ++ y :: t).rdropWhile p = a ++ (y :: t).rdropWhile p := by
  induction t using List.reverseRecOn generalizing a with
  | nil =>
    rw [List.rdropWhile_concat_neg _ _ _ (by simp [hy])]
    simp [List.rdropWhile_singleton, hy]
  | append_singleton t z ih =>
    have e1 : a ++ y :: (t ++ [z]) = (a ++ y :: t) ++ [z] := by simp
    have e2 : y :: (t ++ [z]) = (y :: t) ++ [z] := by simp
    rw [e1, e2]
    cases hz : p z
    · rw [List.rdropWhile_concat_neg _ _ _ (by simp [hz]),
        List.rdropWhile_concat_neg _ _ _ (by simp [hz])]
      simp
    · rw [List.rdropWhile_concat_pos _ _ _ hz, List.rdropWhile_concat_pos _ _ _ hz]
      exact ih a

theorem trim_ws_append {ws acc : Str} (hws : ∀ x ∈ ws, isspace x = true ∧ x ≠ NUL)
    (hacc : ∀ x ∈ acc, x ≠ NUL) :
    trim (ws ++ acc) = (acc.dropWhile isspace).rdropWhile isspace := by
  have hnul : ∀ x ∈ ws ++ acc, x ≠ NUL := by
    intro x hx
    rcases List.mem_append.mp hx with h | h
    · exact (hws x h).2
    · exact hacc x h
  rw [trim_eq, cstr_eq_self hnul, dropWhile_append_of_all _ _ _ (fun x hx => (hws x hx).1)]

/-- Joining the tokens of a tag-free rest with single separators gives the trimmed text,
when no whitespace stands next to a separator. `ws` is leading whitespace already in the
buffer, `acc` the buffer content after it. -/
theorem plain_join (i0 : Char) (l : Str) :
    ∀ (fl : Bool) (ws acc : Str),
      (∀ x ∈ l, x ≠ NUL) → (∀ x ∈ ws, isspace x = true ∧ x ≠ NUL) → (∀ x ∈ acc, x ≠ NUL) →
      (∀ c, acc.head? = some c → isspace c = false) →
      (l.head? = some SPACE → acc ≠ [] ∧ ∀ c, acc.getLast? = some c → isspace c = false) →
      List.Chain' SepApart l →
      List.intercalate [SPACE] (plainTokens i0 fl (ws ++ acc) l)
        = ((acc ++ l).dropWhile isspace).rdropWhile isspace := by
  induction l with
  | nil =>
    intro fl ws acc _ hws hacc _ _ _
    have ht := trim_ws_append hws hacc
    simp only [plainTokens, List.append_nil]
    by_cases h : ws ++ acc = []
    · have hacc0 : acc = [] := (List.append_eq_nil.mp h).2
      simp only [h, ne_eq, not_true_eq_false, if_false]
      subst hacc0
      split <;> simp [List.intercalate]
    · simp only [ne_eq, h, not_false_eq_true, if_true, ht]
      simp [List.intercalate]
  | cons x t ih =>
    intro fl ws acc hnul hws hacc hhead hbound hadj
    have hnul' : ∀ y ∈ t, y ≠ NUL := fun y hy => hnul y (by simp [hy])
    have hadj' : List.Chain' SepApart t := hadj.tail
    by_cases hx : x = SPACE
    · subst hx
      obtain ⟨hne, hlast⟩ := hbound (by simp)
      have htr : trim (ws ++ acc) = acc := by
        rw [trim_ws_append hws hacc, dropWhile_of_head _ _ hhead, rdropWhile_of_last _ _ hlast]
      have hthead : ∀ c, t.head? = some c → isspace c = false := by
        intro c hc
        cases t with
        | nil => simp at hc
        | cons y t' =>
          simp only [List.head?_cons, Option.some.injEq] at hc
          subst hc
          exact (List.chain'_cons.mp hadj).1.1 rfl
      have hIH := ih true [] [] hnul' (by simp) (by simp) (by simp)
        (fun h => by
          have := hthead SPACE h
          rw [isspace_SPACE] at this
          exact absurd this (by decide))
        hadj'
      simp only [List.nil_append] at hIH
      rw [dropWhile_of_head _ _ hthead] at hIH
      simp only [plainTokens, if_true, htr]
      rw [intercalate_cons_eq, hIH]
      have hdw : (acc ++ SPACE :: t).dropWhile isspace = acc ++ SPACE :: t := by
        apply dropWhile_of_head
        intro c hc
        apply hhead c
        cases acc with
        | nil => exact absurd rfl hne
        | cons a0 at0 => simpa using hc
      rw [hdw]
      cases t with
      | nil =>
        simp only [plainTokens_flushed_eq_nil, if_true]
        have : acc ++ [SPACE] = acc ++ [SPACE] := rfl
        rw [List.rdropWhile_concat_pos _ _ _ isspace_SPACE, rdropWhile_of_last _ _ hlast]
      | cons y t' =>
        have hy : isspace y = false := hthead y (by simp)
        have hne2 : plainTokens i0 true [] (y :: t') ≠ [] := by
          rw [Ne, plainTokens_flushed_eq_nil]
          simp
        simp only [hne2, if_false]
        have e : acc ++ SPACE :: y :: t' = (acc ++ [SPACE]) ++ y :: t' := by simp
        rw [e, rdropWhile_append_of_head _ _ _ _ hy]
    · simp only [plainTokens, hx, if_false]
      have hxnul : x ≠ NUL := hnul x (by simp)
      have hxadj : t.head? = some SPACE → isspace x = false := by
        intro h
        cases t with
        | nil => simp at h
        | cons y t' =>
          simp only [List.head?_cons, Option.some.injEq] at h
          exact (List.chain'_cons.mp hadj).1.2 h
      by_cases hcase : acc = [] ∧ isspace x = true
      · obtain ⟨hacc0, hxs⟩ := hcase
        subst hacc0
        have hIH := ih fl (ws ++ [x]) [] hnul'
          (by
            intro y hy
            rcases List.mem_append.mp hy with h | h
            · exact hws y h
            · simp at h; subst h; exact ⟨hxs, hxnul⟩)
          (by simp) (by simp)
          (fun h => by
            have := hxadj h
            rw [hxs] at this
            exact absurd this (by decide))
          hadj'
        simp only [List.append_nil, List.nil_append] at hIH ⊢
        rw [hIH]
        simp [List.dropWhile_cons, hxs]
      · have hIH := ih fl ws (acc ++ [x]) hnul' hws
          (by
            intro y hy
            rcases List.mem_append.mp hy with h | h
            · exact hacc y h
            · simp at h; subst h; exact hxnul)
          (by
            intro c hc
            cases acc with
            | nil =>
              simp at hc
              subst hc
              cases hs : isspace x
              · rfl
              · exact absurd ⟨rfl, hs⟩ hcase
            | cons a0 at0 =>
              apply hhead c
              simpa using hc)
          (by
            intro h
            refine ⟨by simp, ?_⟩
            intro c hc
            simp at hc
            subst hc
            exact hxadj h)
          hadj'
        have e1 : ws ++ acc ++ [x] = ws ++ (acc ++ [x]) := by simp
        have e2 : acc ++ x :: t = acc ++ [x] ++ t := by simp
        rw [e1, hIH, e2]

theorem cstr_isPrefix (s : List Char) : cstr s <+: s := by
  unfold cstr
  exact List.takeWhile_prefix _

theorem cstr_subset {s : List Char} {x : Char} (h : x ∈ cstr s) : x ∈ s :=
  List.IsPrefix.subset (cstr_isPrefix s) h

theorem cstr_chain {R : Char → Char → Prop} {s : List Char} (h : List.Chain' R s) :
    List.Chain' R (cstr s) := by
  exact List.Chain'.prefix h (cstr_isPrefix s)

theorem cstr_head {s : List Char} {c : Char} (h : (cstr s).head? = some c) :
    s.head? = some c := by
  cases s with
  | nil => simp [cstr] at h
  | cons a t =>
    unfold cstr at h
    rw [List.takeWhile_cons] at h
    split at h
    · simpa using h
    · simp at h

/-- C8, amended: for a string without tag character that does not begin with a separator
and in which no whitespace character stands next to a separator (so no two separators
are adjacent), joining the tokens of `explodeByTag` with single separators gives
`trim s`. -/
theorem join_explodeByTag_eq_trim (init : Nat → Char) (s : List Char)
    (hq : ∀ x ∈ s, x ≠ DQUOTE) (hhead : s.head? ≠ some SPACE)
    (hadj : List.Chain' SepApart s) :
    List.intercalate [SPACE] (explodeByTagTokens init s SPACE DQUOTE DQUOTE true) = trim s := by
  rw [explodeByTagTokens_eq_abs,
    abs_plain (init 0) (cstr s) [] [] (fun x hx => hq x (cstr_subset hx))]
  have h := plain_join (init 0) (cstr s) false [] [] (cstr_noNUL s) (by simp) (by simp)
    (by simp) (fun h => absurd (cstr_head h) hhead)
    (cstr_chain hadj)
  simp only [List.nil_append] at h ⊢
  rw [trim_eq]
  simpa using h

/-- Witness of the amended C8 on `<TAB>ls -l ` (leading tab, one trailing separator). -/
theorem join_explodeByTag_eq_trim_witness :
    (∀ x ∈ ['\t', 'l', 's', ' ', '-', 'l', ' '], x ≠ DQUOTE) ∧
    ['\t', 'l', 's', ' ', '-', 'l', ' '].head? ≠ some SPACE ∧
    List.Chain' SepApart ['\t', 'l', 's', ' ', '-', 'l', ' '] ∧
    List.intercalate [SPACE]
        (explodeByTagTokens (fun _ => 'z') ['\t', 'l', 's', ' ', '-', 'l', ' ']
          SPACE DQUOTE DQUOTE true)
      = trim ['\t', 'l', 's', ' ', '-', 'l', ' '] :=
  ⟨by decide, by decide, by simp [SepApart, SPACE, isspace],
    join_explodeByTag_eq_trim (fun _ => 'z') ['\t', 'l', 's', ' ', '-', 'l', ' ']
      (by decide) (by decide) (by simp [SepApart, SPACE, isspace])⟩

/-- C8 as stated fails.  `a<TAB> b` has no tag character and no two adjacent separators;
its tokens a and b join to `a b`, while `trim` keeps the inner tab.  ` a` (one leading
separator) gives an empty first token, so the join keeps the leading separator that
`trim` removes. -/
theorem join_explodeByTag_ne_trim :
    ((∀ x ∈ ['a', '\t', ' ', 'b'], x ≠ DQUOTE) ∧
      List.Chain' (fun x y => ¬(x = SPACE ∧ y = SPACE)) ['a', '\t', ' ', 'b'] ∧
      (∀ init : Nat → Char,
        List.intercalate [SPACE]
          (explodeByTagTokens init ['a', '\t', ' ', 'b'] SPACE DQUOTE DQUOTE true)
          = ['a', ' ', 'b']) ∧
      trim ['a', '\t', ' ', 'b'] = ['a', '\t', ' ', 'b']) ∧
    ((∀ x ∈ [' ', 'a'], x ≠ DQUOTE) ∧
      List.Chain' (fun x y => ¬(x = SPACE ∧ y = SPACE)) [' ', 'a'] ∧
      (∀ init : Nat → Char,
        List.intercalate [SPACE] (explodeByTagTokens init [' ', 'a'] SPACE DQUOTE DQUOTE true)
          = [' ', 'a']) ∧
      trim [' ', 'a'] = ['a']) := by
  refine ⟨⟨by decide, by simp [SPACE], ?_, by decide⟩, ⟨by decide, by simp [SPACE], ?_, by decide⟩⟩
  · intro init
    rw [explodeByTagTokens_eq_abs]
    rfl
  · intro init
    rw [explodeByTagTokens_eq_abs]
    rfl

/-- C7 fails on the code: two adjacent separators make `explodeByTag` emit an empty
token.  On `ls  -l` (two spaces) it returns the three tokens `ls`, the empty string and
`-l`, whatever the initial buffer content. -/
theorem explodeByTag_empty_token :
    ∀ init : Nat → Char,
      explodeByTag init ['l', 's', ' ', ' ', '-', 'l'] SPACE DQUOTE DQUOTE true
        = { tokenList := some [['l', 's'], [], ['-', 'l']], numTokens := 3 } := by
  intro init
  unfold explodeByTag
  rw [explodeByTagTokens_eq_abs]
  rfl

theorem fieldsBetween_nil (d : Char) : fieldsBetween d [] = [] := by
  simp [fieldsBetween, List.splitOn, List.splitOnP_nil]

theorem fieldsBetween_dropWhile (d : Char) (s : Str) :
    fieldsBetween d (s.dropWhile (fun c => c == d)) = fieldsBetween d s := by
  induction s with
  | nil => rfl
  | cons x t ih =>
    by_cases hx : (x == d) = true
    · rw [List.dropWhile_cons_of_pos (p := fun c => c == d) hx, ih]
      simp [fieldsBetween, List.splitOn, List.splitOnP_cons, hx]
    · rw [List.dropWhile_cons_of_neg (p := fun c => c == d) hx]

theorem fieldsBetween_token (d : Char) (s : Str) (hs : s ≠ [])
    (hhead : ∀ c, s.head? = some c → (c == d) = false) :
    fieldsBetween d s
      = s.takeWhile (fun c => !(c == d))
          :: fieldsBetween d ((s.dropWhile (fun c => !(c == d))).drop 1) := by
  have hsplit := List.takeWhile_append_dropWhile (fun c => !(c == d)) s
  have htok : ∀ x ∈ s.takeWhile (fun c => !(c == d)), ¬ ((x == d) = true) := by
    intro x hx
    have := List.mem_takeWhile_imp hx
    simpa using this
  have hne : s.takeWhile (fun c => !(c == d)) ≠ [] := by
    cases s with
    | nil => exact absurd rfl hs
    | cons a t =>
      have := hhead a (by simp)
      simp [List.takeWhile_cons, this]
  cases hrest : s.dropWhile (fun c => !(c == d)) with
  | nil =>
    rw [hrest, List.append_nil] at hsplit
    rw [hsplit] at htok hne ⊢
    simp only [List.drop_nil, fieldsBetween_nil]
    simp [fieldsBetween, List.splitOn, List.splitOnP_eq_single _ _ htok, hs]
  | cons y r =>
    have hy : (y == d) = true := by
      have := List.head_dropWhile_not (fun c => !(c == d)) s (by rw [hrest]; simp)
      simp only [hrest, List.head_cons] at this
      simpa using this
    rw [hrest] at hsplit
    have e : fieldsBetween d s
        = fieldsBetween d (s.takeWhile (fun c => !(c == d)) ++ y :: r) := by rw [hsplit]
    rw [e]
    simp [fieldsBetween, List.splitOn, List.splitOnP_first _ _ htok y hy, hne]

theorem strtok_r_single (s : Str) (d : Char) :
    strtok_r s [d] =
      if s.dropWhile (fun c => c == d) = [] then none
      else some ((s.dropWhile (fun c => c == d)).takeWhile (fun c => !(c == d)),
        ((s.dropWhile (fun c => c == d)).dropWhile (fun c => !(c == d))).drop 1) := by
  have e1 : (fun c => decide (c ∈ [d])) = (fun c => c == d) := by
    funext c
    simp only [List.mem_singleton]
    rfl
  have e2 : (fun c => !decide (c ∈ [d])) = (fun c => !(c == d)) := by
    funext c
    simp only [List.mem_singleton]
    rfl
  simp only [strtok_r, e1, e2]

/-- The loop of `explode` returns, with enough fuel, the trimmed non-empty fields. -/
theorem explodeLoop_eq (d : Char) :
    ∀ (fuel : Nat) (s : Str) (toks : List Str), s.length < fuel →
      explodeLoop [d] fuel s toks = some (toks ++ (fieldsBetween d s).map trim) := by
  intro fuel
  induction fuel with
  | zero => intro s toks h; exact absurd h (Nat.not_lt_zero _)
  | succ n ih =>
    intro s toks hlen
    unfold explodeLoop
    rw [strtok_r_single]
    by_cases hstart : s.dropWhile (fun c => c == d) = []
    · have := fieldsBetween_dropWhile d s
      rw [hstart, fieldsBetween_nil] at this
      simp [hstart, ← this]
    · simp only [hstart, if_false]
      have hhead : ∀ c, (s.dropWhile (fun c => c == d)).head? = some c → (c == d) = false := by
        intro c hc
        have h1 := List.head_dropWhile_not (fun c => c == d) s hstart
        rw [List.head?_eq_head hstart] at hc
        simp only [Option.some.injEq] at hc
        rw [← hc]
        exact h1
      have hf := fieldsBetween_token d _ hstart hhead
      rw [fieldsBetween_dropWhile] at hf
      have hlen2 : (((s.dropWhile (fun c => c == d)).dropWhile (fun c => !(c == d))).drop 1).length
          < n := by
        have h1 := (List.dropWhile_suffix (fun c => c == d) (l := s)).length_le
        have h2 := (List.dropWhile_suffix (fun c => !(c == d))
          (l := s.dropWhile (fun c => c == d))).length_le
        have h3 : 0 < (s.dropWhile (fun c => c == d)).length := List.length_pos.mpr hstart
        simp only [List.length_drop]
        omega
      rw [ih _ _ hlen2, hf]
      simp

theorem mem_of_mem_splitOnP (p : Char → Bool) (s : Str) :
    ∀ f ∈ s.splitOnP p, ∀ x ∈ f, x ∈ s := by
  induction s with
  | nil =>
    intro f hf x hx
    simp [List.splitOnP_nil] at hf
    subst hf
    simp at hx
  | cons a t ih =>
    intro f hf x hx
    rw [List.splitOnP_cons] at hf
    split at hf
    · rcases List.mem_cons.mp hf with h | h
      · subst h; simp at hx
      · exact List.mem_cons_of_mem _ (ih f h x hx)
    · cases hsp : t.splitOnP p with
      | nil => exact absurd hsp (List.splitOnP_ne_nil _ _)
      | cons h r =>
        rw [hsp] at hf ih
        simp only [List.modifyHead_cons, List.mem_cons] at hf
        rcases hf with h1 | h1
        · subst h1
          rcases List.mem_cons.mp hx with h2 | h2
          · subst h2; simp
          · exact List.mem_cons_of_mem _ (ih h (by simp) x h2)
        · exact List.mem_cons_of_mem _ (ih f (by simp [h1]) x hx)

theorem trim_eq_nil_iff {f : Str} (hnul : ∀ c ∈ f, c ≠ NUL) :
    trim f = [] ↔ ∀ c ∈ f, isspace c = true := by
  rw [trim_eq, cstr_eq_self hnul]
  constructor
  · intro h
    by_cases hd : f.dropWhile isspace = []
    · exact List.dropWhile_eq_nil_iff.mp hd
    · have h1 := List.head_dropWhile_not isspace f hd
      have h2 := List.rdropWhile_eq_nil_iff.mp h _ (List.head_mem hd)
      rw [h1] at h2
      exact absurd h2 (by decide)
  · intro h
    rw [List.dropWhile_eq_nil_iff.mpr h]
    simp [List.rdropWhile]

/-- C6, amended: `explode(s, d)` returns, in input order, the trimmed copies of the
non-empty substrings of `s` between occurrences of `d`; consecutive, leading and trailing
delimiters contribute no entry, and an entry is the empty string exactly when its
substring consists of whitespace only. -/
theorem explode_eq_fields (s : List Char) (d : Char) (hd : d ≠ NUL) :
    explode s [d] = some (finish ((fieldsBetween d (cstr s)).map trim)) ∧
    ∀ f ∈ fieldsBetween d (cstr s),
      f ≠ [] ∧ (trim f = [] ↔ ∀ c ∈ f, isspace c = true) := by
  constructor
  · have hdel : cstr [d] = [d] := cstr_eq_self (by simpa using hd)
    unfold explode
    rw [hdel, explodeLoop_eq d _ _ _ (Nat.lt_succ_self _)]
    simp
  · intro f hf
    simp only [fieldsBetween, List.mem_filter, decide_eq_true_eq] at hf
    refine ⟨hf.2, trim_eq_nil_iff ?_⟩
    intro c hc
    exact cstr_noNUL s c (mem_of_mem_splitOnP _ _ f hf.1 c hc)

/-- Witness of the amended C6 on the line `ls ;; pwd;` with delimiter `;`. -/
theorem explode_eq_fields_witness :
    ';' ≠ NUL ∧
    (explode ['l', 's', ' ', ';', ';', ' ', 'p', 'w', 'd', ';'] [';']
        = some (finish ((fieldsBetween ';'
            (cstr ['l', 's', ' ', ';', ';', ' ', 'p', 'w', 'd', ';'])).map trim)) ∧
      ∀ f ∈ fieldsBetween ';' (cstr ['l', 's', ' ', ';', ';', ' ', 'p', 'w', 'd', ';']),
        f ≠ [] ∧ (trim f = [] ↔ ∀ c ∈ f, isspace c = true)) :=
  ⟨by decide,
    explode_eq_fields ['l', 's', ' ', ';', ';', ' ', 'p', 'w', 'd', ';'] ';' (by decide)⟩

/-- C6 as stated fails: on `a; ;b` with delimiter `;` the field between the two
delimiters holds one space, and `explode` returns it trimmed, as an empty entry. -/
theorem explode_empty_entry :
    explode ['a', ';', ' ', ';', 'b'] [';']
      = some { tokenList := some [['a'], [], ['b']], numTokens := 3 } := by
  decide

theorem getD_append_length (pre : List (Option Str)) (a : Option Str) (tl : List (Option Str)) :
    (pre ++ a :: tl).getD pre.length none = a := by
  induction pre with
  | nil => rfl
  | cons x t ih => simpa using ih

theorem getD_append_length_succ (pre : List (Option Str)) (a b : Option Str)
    (tl : List (Option Str)) :
    (pre ++ a :: b :: tl).getD (pre.length + 1) none = b := by
  have e : pre ++ a :: b :: tl = (pre ++ [a]) ++ b :: tl := by simp
  have l : pre.length + 1 = (pre ++ [a]).length := by simp
  rw [e, l, getD_append_length]

theorem set_append_length (pre : List (Option Str)) (a b : Option Str)
    (tl : List (Option Str)) :
    (pre ++ a :: tl).set pre.length b = pre ++ b :: tl := by
  induction pre with
  | nil => rfl
  | cons x t ih => simp [ih]

theorem set_append_length_succ (pre : List (Option Str)) (a b c : Option Str)
    (tl : List (Option Str)) :
    (pre ++ a :: b :: tl).set (pre.length + 1) c = pre ++ a :: c :: tl := by
  have e : pre ++ a :: b :: tl = (pre ++ [a]) ++ b :: tl := by simp
  have l : pre.length + 1 = (pre ++ [a]).length := by simp
  rw [e, l, set_append_length]
  simp

/-- The index loop of `runCmd`, started at index `pre.length` on an array whose entries
from there on are the tokens `rest` and the null sentinel, computes `scanAbs rest`. -/
theorem scanLoop_eq_scanAbs :
    ∀ (fuel : Nat) (rest : List Str) (pre : List (Option Str)) (i o : Option Str),
      rest.length ≤ fuel →
      scanLoop (pre.length + rest.length) fuel pre.length
          { args := pre ++ rest.map some ++ [none], inFile := i, outFile := o }
        = (scanAbs rest i o).map
            (fun r => { args := pre ++ r.1 ++ [none], inFile := r.2.1, outFile := r.2.2 }) := by
  intro fuel
  induction fuel using Nat.strong_induction_on with
  | _ fuel ih =>
    intro rest pre i o hlen
    cases rest with
    | nil =>
      cases fuel <;> simp [scanLoop, scanAbs]
    | cons t rest1 =>
      cases fuel with
      | zero => simp at hlen
      | succ n =>
        have htk : pre.length < pre.length + (t :: rest1).length := by simp
        unfold scanLoop
        simp only [htk, if_true]
        have hget : (pre ++ List.map some (t :: rest1) ++ [none]).getD pre.length none
            = some t := by
          simp only [List.map_cons, List.append_assoc, List.cons_append]
          exact getD_append_length _ _ _
        rw [hget]
        simp only
        cases rest1 with
        | nil =>
          have hget1 : (pre ++ List.map some [t] ++ [none]).getD (pre.length + 1) none
              = none := by
            simp only [List.map_cons, List.map_nil, List.append_assoc, List.cons_append,
              List.nil_append]
            exact getD_append_length_succ _ _ _ _
          rw [hget1]
          by_cases h1 : streq LT t = true
          · simp [h1, scanAbs]
          · by_cases h2 : streq GT t = true
            · simp [h1, h2, scanAbs]
            · simp only [h1, h2, if_false, scanAbs, Bool.false_eq_true]
              have := ih n (Nat.lt_succ_self n) [] (pre ++ [some t]) i o (by simp)
              simp only [List.length_append, List.length_singleton, List.length_nil,
                Nat.add_zero, List.map_nil, List.append_nil, scanAbs, Option.map_some'] at this
              simp only [List.length_singleton, List.map_cons, List.map_nil,
                Option.map_some']
              rw [this]
        | cons f rest2 =>
          have hget1 : (pre ++ List.map some (t :: f :: rest2) ++ [none]).getD
              (pre.length + 1) none = some f := by
            simp only [List.map_cons, List.append_assoc, List.cons_append]
            exact getD_append_length_succ _ _ _ _
          have hset : ((pre ++ List.map some (t :: f :: rest2) ++ [none]).set pre.length
              none).set (pre.length + 1) none
              = (pre ++ [none, none]) ++ List.map some rest2 ++ [none] := by
            simp only [List.map_cons, List.append_assoc, List.cons_append]
            rw [set_append_length, set_append_length_succ]
            simp
          have hidx : pre.length + 1 + 1 = (pre ++ [none, none] : List (Option Str)).length := by
            simp
          have hcnt : pre.length + (t :: f :: rest2).length
              = (pre ++ [none, none] : List (Option Str)).length + rest2.length := by
            simp
            omega
          have hfuel2 : rest2.length ≤ n := by
            simp at hlen
            omega
          rw [hget1, hset, hidx, hcnt]
          by_cases h1 : streq LT t = true
          · simp only [h1, if_true, scanAbs]
            rw [ih n (Nat.lt_succ_self n) rest2 (pre ++ [none, none]) (some f) o hfuel2]
            simp [Option.map_map, Function.comp_def]
          · by_cases h2 : streq GT t = true
            · simp only [h1, h2, if_true, if_false, scanAbs, Bool.false_eq_true]
              rw [ih n (Nat.lt_succ_self n) rest2 (pre ++ [none, none]) i (some f) hfuel2]
              simp [Option.map_map, Function.comp_def]
            · simp only [h1, h2, if_false, scanAbs, Bool.false_eq_true]
              have := ih n (Nat.lt_succ_self n) (f :: rest2) (pre ++ [some t]) i o
                (by simp at hlen ⊢; omega)
              have e1 : (pre ++ [none, none] : List (Option Str)).length + rest2.length
                  = (pre ++ [some t]).length + (f :: rest2).length := by
                simp
                omega
              have e2 : pre.length + 1 = (pre ++ [some t]).length := by simp
              have e3 : pre ++ List.map some (t :: f :: rest2) ++ [none]
                  = pre ++ [some t] ++ List.map some (f :: rest2) ++ [none] := by simp
              rw [e1, e2, e3, this]
              simp [Option.map_map, Function.comp_def]

theorem redirectScan_eq_scanAbs (tokens : List Str) :
    redirectScan tokens
      = (scanAbs tokens none none).map
          (fun r => { args := r.1 ++ [none], inFile := r.2.1, outFile := r.2.2 }) := by
  have := scanLoop_eq_scanAbs tokens.length tokens [] none none (Nat.le_refl _)
  simpa [redirectScan] using this

theorem list_two_step {P : List Str → Prop} (h0 : P []) (h1 : ∀ t, P [t])
    (h2 : ∀ t f rest, P rest → P (f :: rest) → P (t :: f :: rest)) : ∀ l, P l := by
  have key : ∀ l, P l ∧ ∀ t, P (t :: l) := by
    intro l
    induction l with
    | nil => exact ⟨h0, h1⟩
    | cons f rest ih => exact ⟨ih.2 f, fun t => h2 t f rest ih.1 (ih.2 f)⟩
  exact fun l => (key l).1

theorem argv_none_cons (m : List (Option Str)) : argv (none :: m) = [] := by
  simp [argv]

theorem argv_some_cons (t : Str) (m : List (Option Str)) : argv (some t :: m) = t :: argv m := by
  simp [argv]

theorem argv_nil_sentinel : argv [none] = [] := by
  simp [argv]

theorem scanAbs_cons_notOp (t : Str) (l : List Str) (i o : Option Str)
    (h : isOp t = false) :
    scanAbs (t :: l) i o = (scanAbs l i o).map (fun r => (some t :: r.1, r.2)) := by
  simp only [isOp, Bool.or_eq_false_iff] at h
  cases l with
  | nil => simp [scanAbs, h.1, h.2]
  | cons f rest => simp [scanAbs, h.1, h.2]

theorem scanAbs_cons_op (t f : Str) (rest : List Str) (i o : Option Str)
    (h : isOp t = true) :
    scanAbs (t :: f :: rest) i o
      = (scanAbs rest (if streq LT t then some f else i) (if streq LT t then o else some f)).map
          (fun r => (none :: none :: r.1, r.2)) := by
  simp only [isOp, Bool.or_eq_true] at h
  by_cases h1 : streq LT t = true
  · simp [scanAbs, h1]
  · have h2 : streq GT t = true := by
      rcases h with h | h
      · exact absurd h h1
      · exact h
    simp [scanAbs, h1, h2]

/-- On a scannable sequence the scan is defined, and the entries of `args` before the
first null are the tokens before the first operator. -/
theorem scanAbs_argv : ∀ (l : List Str) (i o : Option Str), Scannable l = true →
    ∃ r, scanAbs l i o = some r ∧
      argv (r.1 ++ [none]) = l.takeWhile (fun t => !isOp t) := by
  intro l
  induction l using list_two_step with
  | h0 => intro i o _; exact ⟨_, rfl, by simp [argv]⟩
  | h1 t =>
    intro i o h
    simp only [Scannable, Bool.not_eq_true'] at h
    rw [scanAbs_cons_notOp t [] i o h]
    exact ⟨_, rfl, by simp [argv, h]⟩
  | h2 t f rest ih1 ih2 =>
    intro i o h
    cases hop : isOp t
    · simp only [Scannable, hop, Bool.false_eq_true, if_false] at h
      obtain ⟨r, hr, ha⟩ := ih2 i o h
      rw [scanAbs_cons_notOp t _ i o hop, hr]
      refine ⟨_, rfl, ?_⟩
      simp only [List.cons_append, argv_some_cons, ha]
      rw [List.takeWhile_cons_of_pos (p := fun t => !isOp t) (a := t) (by simp [hop])]
    · simp only [Scannable, hop, if_true] at h
      obtain ⟨r, hr, _⟩ := ih1 (if streq LT t then some f else i)
        (if streq LT t then o else some f) h
      rw [scanAbs_cons_op t f rest i o hop, hr]
      refine ⟨_, rfl, ?_⟩
      simp only [List.cons_append, argv_none_cons]
      rw [List.takeWhile_cons_of_neg (p := fun t => !isOp t) (a := t) (by simp [hop])]

theorem stripRedirects_cons_notOp (t : Str) (l : List Str) (h : isOp t = false) :
    stripRedirects (t :: l) = t :: stripRedirects l := by
  cases l with
  | nil => simp [stripRedirects, h]
  | cons f rest => simp [stripRedirects, h]

theorem stripRedirects_split (l : List Str) :
    stripRedirects l
      = l.takeWhile (fun t => !isOp t) ++ stripRedirects (l.dropWhile (fun t => !isOp t)) := by
  induction l with
  | nil => simp [stripRedirects]
  | cons t rest ih =>
    cases hop : isOp t
    · rw [stripRedirects_cons_notOp t rest hop, List.takeWhile_cons_of_pos (p := fun t => !isOp t) (a := t) (by simp [hop]),
        List.dropWhile_cons_of_pos (p := fun t => !isOp t) (a := t) (by simp [hop]), ih]
      simp
    · rw [List.takeWhile_cons_of_neg (p := fun t => !isOp t) (a := t) (by simp [hop]), List.dropWhile_cons_of_neg (p := fun t => !isOp t) (a := t) (by simp [hop])]
      simp

/-- On a sequence where every operator the scanner meets is followed by a token, the
command is run, and the entries of `args` before the first null are the tokens before
the first operator token. -/
theorem runTokens_argv_cut (tokens : List Str) (hne : tokens ≠ [])
    (h : Scannable tokens = true) :
    ∃ st, (runTokens tokens).scan = some st ∧
      argv st.args = tokens.takeWhile (fun t => !isOp t) ∧
      stripRedirects tokens
        = argv st.args ++ stripRedirects (tokens.dropWhile (fun t => !isOp t)) := by
  obtain ⟨r, hr, ha⟩ := scanAbs_argv tokens none none h
  have hlen : tokens.length > 0 := List.length_pos.mpr hne
  have hscan : redirectScan tokens
      = some { args := r.1 ++ [none], inFile := r.2.1, outFile := r.2.2 } := by
    rw [redirectScan_eq_scanAbs, hr]
    rfl
  refine ⟨{ args := r.1 ++ [none], inFile := r.2.1, outFile := r.2.2 }, ?_, ha, ?_⟩
  · unfold runTokens
    simp only [hlen, if_true, hscan]
    cases func_lookup ((tokens.map some ++ [none]).getD 0 none) <;> rfl
  · rw [ha]
    exact stripRedirects_split tokens

/-- C3 fails on the code.  The scan removes an operator and its filename by overwriting
both entries of `args` with NULL (lines 434-435, 441-442) and never closes the gap, so
`execvp` and the builtins see `args` only up to the first NULL.  When nothing but
redirections follows the first operator, the argument vector is the token sequence with
operators and filenames removed, as the claim says.  When a word follows a redirection
it is lost: for `cat < in foo` the sequence without operator and filename is `cat`,
`foo`, the array is `cat`, null, null, `foo`, null, and the argument vector is `cat`
alone.  For `> out ls` the array starts with null: the argument vector is empty and
`execvp` is called with a null `args[0]`. -/
theorem runTokens_argv_drops_word :
    (∀ tokens : List Str, tokens ≠ [] → Scannable tokens = true →
      stripRedirects (tokens.dropWhile (fun t => !isOp t)) = [] →
      ∃ st, (runTokens tokens).scan = some st ∧ argv st.args = stripRedirects tokens) ∧
    (Scannable [['c', 'a', 't'], LT, ['i', 'n'], ['f', 'o', 'o']] = true ∧
      stripRedirects [['c', 'a', 't'], LT, ['i', 'n'], ['f', 'o', 'o']]
        = [['c', 'a', 't'], ['f', 'o', 'o']] ∧
      runTokens [['c', 'a', 't'], LT, ['i', 'n'], ['f', 'o', 'o']]
        = Outcome.childExec [some ['c', 'a', 't'], none, none, some ['f', 'o', 'o'], none]
            (some ['i', 'n']) none { stdinFile := some ['i', 'n'], stdoutFile := none } ∧
      argv [some ['c', 'a', 't'], none, none, some ['f', 'o', 'o'], none]
        = [['c', 'a', 't']]) ∧
    (Scannable [GT, ['o', 'u', 't'], ['l', 's']] = true ∧
      stripRedirects [GT, ['o', 'u', 't'], ['l', 's']] = [['l', 's']] ∧
      runTokens [GT, ['o', 'u', 't'], ['l', 's']]
        = Outcome.childExec [none, none, some ['l', 's'], none]
            none (some ['o', 'u', 't'])
            { stdinFile := none, stdoutFile := some ['o', 'u', 't'] } ∧
      argv [none, none, some ['l', 's'], none] = []) := by
  refine ⟨?_, ⟨by decide, by decide, by decide, by decide⟩,
    ⟨by decide, by decide, by decide, by decide⟩⟩
  intro tokens hne h htail
  obtain ⟨st, hst, _, hsplit⟩ := runTokens_argv_cut tokens hne h
  refine ⟨st, hst, ?_⟩
  rw [hsplit, htail, List.append_nil]

theorem plainTokens_word (i0 : Char) (w : Str) (hw : ∀ x ∈ w, x ≠ SPACE) :
    ∀ (fl : Bool) (acc l : Str),
      plainTokens i0 fl acc (w ++ l) = plainTokens i0 fl (acc ++ w) l := by
  induction w with
  | nil => intro fl acc l; simp
  | cons x t ih =>
    intro fl acc l
    have hx : x ≠ SPACE := hw x (by simp)
    simp only [List.cons_append, plainTokens, hx, if_false, List.append_eq]
    rw [ih (fun y hy => hw y (by simp [hy]))]
    simp

theorem plainTokens_words (i0 : Char) :
    ∀ (ws : List Str) (fl : Bool), ws ≠ [] → (∀ w ∈ ws, Word w) →
      plainTokens i0 fl [] (List.intercalate [SPACE] ws) = ws := by
  intro ws
  induction ws with
  | nil => intro fl h _; exact absurd rfl h
  | cons w rest ih =>
    intro fl _ hw
    have hww : Word w := hw w (by simp)
    rw [intercalate_cons_eq]
    by_cases hr : rest = []
    · subst hr
      have := plainTokens_word i0 w hww.ne_SPACE fl [] []
      simp only [List.append_nil, List.nil_append] at this
      simp only [if_true, this, plainTokens, hww.1, ne_eq, not_false_eq_true, hww.trim]
    · simp only [hr, if_false, List.append_assoc]
      rw [plainTokens_word i0 w hww.ne_SPACE]
      simp only [List.nil_append, List.singleton_append, plainTokens, if_true, hww.trim,
        List.append_eq]
      rw [ih true hr (fun v hv => hw v (by simp [hv]))]

theorem mem_intercalate {x : Char} {sep : Str} :
    ∀ {ws : List Str}, x ∈ List.intercalate sep ws → x ∈ sep ∨ ∃ w ∈ ws, x ∈ w := by
  intro ws
  induction ws with
  | nil => intro h; simp [List.intercalate] at h
  | cons w rest ih =>
    intro h
    rw [intercalate_cons_eq] at h
    split at h
    · exact Or.inr ⟨w, by simp, h⟩
    · simp only [List.mem_append] at h
      rcases h with (h | h) | h
      · exact Or.inr ⟨w, by simp, h⟩
      · exact Or.inl h
      · rcases ih h with h' | ⟨v, hv, hx⟩
        · exact Or.inl h'
        · exact Or.inr ⟨v, by simp [hv], hx⟩

theorem SPACE_mem_intercalate (a b : Str) (l : List Str) :
    SPACE ∈ List.intercalate [SPACE] (a :: b :: l) := by
  rw [intercalate_cons_eq]
  simp

/-- Words joined by single separators are tokenized into exactly these words. -/
theorem tokens_of_words (init : Nat → Char) (ws : List Str) (hne : ws ≠ [])
    (hw : ∀ w ∈ ws, Word w) :
    explodeByTagTokens init (List.intercalate [SPACE] ws) SPACE DQUOTE DQUOTE true = ws := by
  have hnul : ∀ x ∈ List.intercalate [SPACE] ws, x ≠ NUL := by
    intro x hx
    rcases mem_intercalate hx with h | ⟨w, hwm, hxw⟩
    · simp at h; subst h; exact SPACE_ne_NUL
    · exact ((hw w hwm).2 x hxw).2.2
  have hq : ∀ x ∈ List.intercalate [SPACE] ws, x ≠ DQUOTE := by
    intro x hx
    rcases mem_intercalate hx with h | ⟨w, hwm, hxw⟩
    · simp at h; subst h; exact SPACE_ne_DQUOTE
    · exact ((hw w hwm).2 x hxw).2.1
  rw [explodeByTagTokens_eq_abs, cstr_eq_self hnul, abs_plain _ _ _ _ hq,
    plainTokens_words _ ws _ hne hw]
  simp

theorem Word_LT : Word LT := by decide

theorem Word_GT : Word GT := by decide

theorem isOp_of_ne {w : Str} (hw : Word w) (h1 : w ≠ LT) (h2 : w ≠ GT) : isOp w = false := by
  have hc : cstr w = w := cstr_eq_self (fun c hc => (hw.2 c hc).2.2)
  have hl : cstr LT = LT := by decide
  have hg : cstr GT = GT := by decide
  simp only [isOp, streq, hc, hl, hg, Bool.or_eq_false_iff, decide_eq_false_iff_not]
  exact ⟨fun h => h1 h.symm, fun h => h2 h.symm⟩

theorem scanAbs_words (ws : List Str) (hw : ∀ w ∈ ws, isOp w = false) :
    ∀ (rest : List Str) (i o : Option Str),
      scanAbs (ws ++ rest) i o
        = (scanAbs rest i o).map (fun r => (ws.map some ++ r.1, r.2)) := by
  induction ws with
  | nil => intro rest i o; simp
  | cons w t ih =>
    intro rest i o
    rw [List.cons_append, scanAbs_cons_notOp w _ i o (hw w (by simp)),
      ih (fun v hv => hw v (by simp [hv]))]
    simp [Option.map_map, Function.comp_def]

theorem argv_words (ws : List Str) (m : List (Option Str)) :
    argv (ws.map some ++ none :: m) = ws := by
  induction ws with
  | nil => simp [argv]
  | cons w t ih =>
    simp only [List.map_cons, List.cons_append, argv_some_cons, ih]

theorem runTokens_scan {tokens : List Str} {st : ScanState} (hne : tokens ≠ [])
    (h : redirectScan tokens = some st) : (runTokens tokens).scan = some st := by
  have hlen : tokens.length > 0 := List.length_pos.mpr hne
  unfold runTokens
  simp only [hlen, if_true, h]
  cases func_lookup ((tokens.map some ++ [none]).getD 0 none) <;> rfl

theorem runCmd_of_words (init : Nat → Char) (a b : Str) (l : List Str)
    (hw : ∀ w ∈ a :: b :: l, Word w) :
    runCmd init (List.intercalate [SPACE] (a :: b :: l)) = runTokens (a :: b :: l) := by
  have hnul : ∀ x ∈ List.intercalate [SPACE] (a :: b :: l), x ≠ NUL := by
    intro x hx
    rcases mem_intercalate hx with h | ⟨w, hwm, hxw⟩
    · simp at h; subst h; exact SPACE_ne_NUL
    · exact ((hw w hwm).2 x hxw).2.2
  have hexit : streq "exit".toList (List.intercalate [SPACE] (a :: b :: l)) = false := by
    simp only [streq, cstr_eq_self hnul, decide_eq_false_iff_not]
    intro h
    have hmem := SPACE_mem_intercalate a b l
    rw [← h] at hmem
    revert hmem
    decide
  unfold runCmd
  rw [hexit, tokens_of_words init _ (by simp) hw]
  simp

/-- C4: a command made of words w1..wn (n >= 1, none of them `<` or `>`) followed by
`> g`, or by `< f > g`, is run with the argument vector w1..wn (the entries of `args`
before the first null), output filename g, and input filename f (none in the first
form). -/
theorem runCmd_trailing_redirects (init : Nat → Char) (ws : List Str) (f g : Str)
    (hne : ws ≠ []) (hw : ∀ w ∈ ws, Word w ∧ w ≠ LT ∧ w ≠ GT) (hf : Word f) (hg : Word g) :
    (∃ st, (runCmd init (List.intercalate [SPACE] (ws ++ [GT, g]))).scan = some st ∧
      argv st.args = ws ∧ st.inFile = none ∧ st.outFile = some g) ∧
    (∃ st, (runCmd init (List.intercalate [SPACE] (ws ++ [LT, f, GT, g]))).scan = some st ∧
      argv st.args = ws ∧ st.inFile = some f ∧ st.outFile = some g) := by
  obtain ⟨w0, wt, rfl⟩ := List.exists_cons_of_ne_nil hne
  have hop : ∀ w ∈ w0 :: wt, isOp w = false :=
    fun w hm => isOp_of_ne (hw w hm).1 (hw w hm).2.1 (hw w hm).2.2
  have hLT : isOp LT = true := by decide
  have hGT : isOp GT = true := by decide
  have hsLT : streq LT LT = true := by decide
  have hsGT : streq LT GT = false := by decide
  constructor
  · have hall : ∀ w ∈ w0 :: (wt ++ [GT, g]), Word w := by
      intro w hm
      simp only [List.mem_cons, List.mem_append, List.mem_singleton, List.not_mem_nil,
        or_false] at hm
      rcases hm with h | h | h | h
      · exact (hw w (by simp [h])).1
      · exact (hw w (by simp [h])).1
      · exact h ▸ Word_GT
      · exact h ▸ hg
    have hrun : runCmd init (List.intercalate [SPACE] (w0 :: wt ++ [GT, g]))
        = runTokens (w0 :: wt ++ [GT, g]) := by
      cases wt with
      | nil => exact runCmd_of_words init w0 GT [g] hall
      | cons w1 wt' => exact runCmd_of_words init w0 w1 (wt' ++ [GT, g]) hall
    have hscan : redirectScan (w0 :: wt ++ [GT, g])
        = some { args := (w0 :: wt).map some ++ [none, none] ++ [none],
                 inFile := none, outFile := some g } := by
      rw [redirectScan_eq_scanAbs, scanAbs_words _ hop, scanAbs_cons_op _ _ _ _ _ hGT]
      simp [hsGT, scanAbs]
    rw [hrun]
    refine ⟨_, runTokens_scan (by simp) hscan, ?_, rfl, rfl⟩
    simp only [List.append_assoc, List.cons_append, List.nil_append]
    exact argv_words (w0 :: wt) _
  · have hall : ∀ w ∈ w0 :: (wt ++ [LT, f, GT, g]), Word w := by
      intro w hm
      simp only [List.mem_cons, List.mem_append, List.mem_singleton, List.not_mem_nil,
        or_false] at hm
      rcases hm with h | h | h | h | h | h
      · exact (hw w (by simp [h])).1
      · exact (hw w (by simp [h])).1
      · exact h ▸ Word_LT
      · exact h ▸ hf
      · exact h ▸ Word_GT
      · exact h ▸ hg
    have hrun : runCmd init (List.intercalate [SPACE] (w0 :: wt ++ [LT, f, GT, g]))
        = runTokens (w0 :: wt ++ [LT, f, GT, g]) := by
      cases wt with
      | nil => exact runCmd_of_words init w0 LT [f, GT, g] hall
      | cons w1 wt' => exact runCmd_of_words init w0 w1 (wt' ++ [LT, f, GT, g]) hall
    have hscan : redirectScan (w0 :: wt ++ [LT, f, GT, g])
        = some { args := (w0 :: wt).map some ++ [none, none, none, none] ++ [none],
                 inFile := some f, outFile := some g } := by
      rw [redirectScan_eq_scanAbs, scanAbs_words _ hop, scanAbs_cons_op _ _ _ _ _ hLT,
        scanAbs_cons_op _ _ _ _ _ hGT]
      simp [hsLT, hsGT, scanAbs]
    rw [hrun]
    refine ⟨_, runTokens_scan (by simp) hscan, ?_, rfl, rfl⟩
    simp only [List.append_assoc, List.cons_append, List.nil_append]
    exact argv_words (w0 :: wt) _

/-- Witness of C4: `echo hi > out.txt` and `echo hi < in.txt > out.txt`. -/
theorem runCmd_trailing_redirects_witness :
    [['e', 'c', 'h', 'o'], ['h', 'i']] ≠ [] ∧
    (∀ w ∈ [['e', 'c', 'h', 'o'], ['h', 'i']], Word w ∧ w ≠ LT ∧ w ≠ GT) ∧
    Word ['i', 'n', '.', 't', 'x', 't'] ∧ Word ['o', 'u', 't', '.', 't', 'x', 't'] ∧
    ((∃ st, (runCmd (fun _ => 'z') (List.intercalate [SPACE]
          ([['e', 'c', 'h', 'o'], ['h', 'i']] ++ [GT, ['o', 'u', 't', '.', 't', 'x', 't']]))).scan
          = some st ∧
        argv st.args = [['e', 'c', 'h', 'o'], ['h', 'i']] ∧ st.inFile = none ∧
        st.outFile = some ['o', 'u', 't', '.', 't', 'x', 't']) ∧
      (∃ st, (runCmd (fun _ => 'z') (List.intercalate [SPACE]
          ([['e', 'c', 'h', 'o'], ['h', 'i']]
            ++ [LT, ['i', 'n', '.', 't', 'x', 't'], GT, ['o', 'u', 't', '.', 't', 'x', 't']]))).scan
          = some st ∧
        argv st.args = [['e', 'c', 'h', 'o'], ['h', 'i']] ∧
        st.inFile = some ['i', 'n', '.', 't', 'x', 't'] ∧
        st.outFile = some ['o', 'u', 't', '.', 't', 'x', 't'])) :=
  ⟨by decide, by decide, by decide, by decide,
    runCmd_trailing_redirects (fun _ => 'z') [['e', 'c', 'h', 'o'], ['h', 'i']]
      ['i', 'n', '.', 't', 'x', 't'] ['o', 'u', 't', '.', 't', 'x', 't']
      (by decide) (by decide) (by decide) (by decide)⟩

theorem lastAfter_nil (op : Str) : lastAfter op [] = none := rfl

theorem lastAfter_single (op t : Str) : lastAfter op [t] = none := rfl

theorem lastAfter_cons_cons (op t f : Str) (rest : List Str) :
    lastAfter op (t :: f :: rest)
      = (lastAfter op (f :: rest)).or (if streq op t then some f else none) := by
  unfold lastAfter
  simp only [List.tail_cons, List.zip_cons_cons, List.filter_cons]
  cases hL : List.filter (fun p => streq op p.1) ((f :: rest).zip rest) with
  | nil => split <;> simp
  | cons p L =>
    split
    · simp [List.getLast?_cons_cons, List.getLast?_cons]
    · simp

theorem lastAfter_cons_notOp (op t : Str) (l : List Str) (h : streq op t = false) :
    lastAfter op (t :: l) = lastAfter op l := by
  cases l with
  | nil => rfl
  | cons f rest => rw [lastAfter_cons_cons]; simp [h]

theorem streq_LT_GT_excl {t : Str} (h : streq LT t = true) : streq GT t = false := by
  simp only [streq, decide_eq_true_eq, decide_eq_false_iff_not] at h ⊢
  rw [← h]
  decide

/-- When every operator is followed by a filename token, the scan is defined and each
filename variable ends as the token after the last occurrence of its operator, or keeps
its initial value when the operator does not occur. -/
theorem scanAbs_last : ∀ (l : List Str) (i o : Option Str), filenamesFollow l = true →
    ∃ r, scanAbs l i o = some r ∧
      r.2.1 = (lastAfter LT l).or i ∧ r.2.2 = (lastAfter GT l).or o := by
  intro l
  induction l using list_two_step with
  | h0 => intro i o _; exact ⟨_, rfl, by simp [lastAfter_nil], by simp [lastAfter_nil]⟩
  | h1 t =>
    intro i o h
    simp only [filenamesFollow, Bool.not_eq_true'] at h
    rw [scanAbs_cons_notOp t [] i o h]
    exact ⟨_, rfl, by simp [scanAbs, lastAfter_single], by simp [scanAbs, lastAfter_single]⟩
  | h2 t f rest ih1 ih2 =>
    intro i o h
    simp only [filenamesFollow, Bool.and_eq_true, Bool.or_eq_true, Bool.not_eq_true'] at h
    obtain ⟨hpair, hrest⟩ := h
    cases hop : isOp t
    · obtain ⟨r, hr, h1, h2⟩ := ih2 i o hrest
      have hn := hop
      simp only [isOp, Bool.or_eq_false_iff] at hn
      rw [scanAbs_cons_notOp t _ i o hop, hr]
      refine ⟨_, rfl, ?_, ?_⟩
      · rw [lastAfter_cons_notOp LT t _ hn.1]; exact h1
      · rw [lastAfter_cons_notOp GT t _ hn.2]; exact h2
    · have hf : isOp f = false := by
        rcases hpair with h | h
        · rw [hop] at h; exact absurd h (by decide)
        · exact h
      have hfn := hf
      simp only [isOp, Bool.or_eq_false_iff] at hfn
      have hrest' : filenamesFollow rest = true := by
        cases rest with
        | nil => rfl
        | cons x xs =>
          simp only [filenamesFollow, Bool.and_eq_true] at hrest
          exact hrest.2
      obtain ⟨r, hr, h1, h2⟩ := ih1 (if streq LT t then some f else i)
        (if streq LT t then o else some f) hrest'
      rw [scanAbs_cons_op t f rest i o hop, hr]
      refine ⟨_, rfl, ?_, ?_⟩
      · simp only [Option.map_some', h1]
        rw [lastAfter_cons_cons, lastAfter_cons_notOp LT f _ hfn.1]
        by_cases hl : streq LT t = true
        · simp [hl, Option.or_assoc]
        · simp [hl]
      · simp only [Option.map_some', h2]
        rw [lastAfter_cons_cons, lastAfter_cons_notOp GT f _ hfn.2]
        by_cases hl : streq LT t = true
        · simp [hl, streq_LT_GT_excl hl]
        · have hg : streq GT t = true := by
            simp only [isOp, Bool.or_eq_true] at hop
            rcases hop with h | h
            · exact absurd h hl
            · exact h
          simp [hl, hg, Option.or_assoc]

/-- C9: when every `<` and `>` token is followed by a filename token, the redirect scan
of `runCmd` raises no error and ends with, for each operator, the filename that follows
its last occurrence. -/
theorem redirectScan_last_wins (tokens : List Str) (h : filenamesFollow tokens = true) :
    ∃ st, redirectScan tokens = some st ∧
      st.inFile = lastAfter LT tokens ∧ st.outFile = lastAfter GT tokens := by
  obtain ⟨r, hr, h1, h2⟩ := scanAbs_last tokens none none h
  refine ⟨{ args := r.1 ++ [none], inFile := r.2.1, outFile := r.2.2 }, ?_, ?_, ?_⟩
  · rw [redirectScan_eq_scanAbs, hr]
    rfl
  · simpa using h1
  · simpa using h2

/-- Witness of C9 on `cat > a < c > b < d`: the scan ends with input `d` and output `b`. -/
theorem redirectScan_last_wins_witness :
    filenamesFollow [['c', 'a', 't'], GT, ['a'], LT, ['c'], GT, ['b'], LT, ['d']] = true ∧
    lastAfter LT [['c', 'a', 't'], GT, ['a'], LT, ['c'], GT, ['b'], LT, ['d']] = some ['d'] ∧
    lastAfter GT [['c', 'a', 't'], GT, ['a'], LT, ['c'], GT, ['b'], LT, ['d']] = some ['b'] ∧
    ∃ st, redirectScan [['c', 'a', 't'], GT, ['a'], LT, ['c'], GT, ['b'], LT, ['d']] = some st ∧
      st.inFile = lastAfter LT [['c', 'a', 't'], GT, ['a'], LT, ['c'], GT, ['b'], LT, ['d']] ∧
      st.outFile = lastAfter GT [['c', 'a', 't'], GT, ['a'], LT, ['c'], GT, ['b'], LT, ['d']] :=
  ⟨by decide, by decide, by decide,
    redirectScan_last_wins [['c', 'a', 't'], GT, ['a'], LT, ['c'], GT, ['b'], LT, ['d']]
      (by decide)⟩

/-- C5 fails on the code: `help > out.txt` names an output file for a builtin, and
`runCmd` calls the builtin with both standard descriptors untouched, although the scan
found the filename; the external command `ls > out.txt` runs with standard output
redirected to the file. -/
theorem runCmd_builtin_not_redirected :
    ∀ init : Nat → Char,
      runCmd init ['h', 'e', 'l', 'p', ' ', '>', ' ', 'o', 'u', 't', '.', 't', 'x', 't']
        = Outcome.builtinCall Builtin.builtin_help
            [some ['h', 'e', 'l', 'p'], none, none, none]
            none (some ['o', 'u', 't', '.', 't', 'x', 't'])
            { stdinFile := none, stdoutFile := none } ∧
      runCmd init ['l', 's', ' ', '>', ' ', 'o', 'u', 't', '.', 't', 'x', 't']
        = Outcome.childExec [some ['l', 's'], none, none, none]
            none (some ['o', 'u', 't', '.', 't', 'x', 't'])
            { stdinFile := none, stdoutFile := some ['o', 'u', 't', '.', 't', 'x', 't'] } := by
  intro init
  have h1 := tokens_of_words init [['h', 'e', 'l', 'p'], GT, ['o', 'u', 't', '.', 't', 'x', 't']]
    (by decide) (by decide)
  have h2 := tokens_of_words init [['l', 's'], GT, ['o', 'u', 't', '.', 't', 'x', 't']]
    (by decide) (by decide)
  have e1 : List.intercalate [SPACE] [['h', 'e', 'l', 'p'], GT, ['o', 'u', 't', '.', 't', 'x', 't']]
      = ['h', 'e', 'l', 'p', ' ', '>', ' ', 'o', 'u', 't', '.', 't', 'x', 't'] := by decide
  have e2 : List.intercalate [SPACE] [['l', 's'], GT, ['o', 'u', 't', '.', 't', 'x', 't']]
      = ['l', 's', ' ', '>', ' ', 'o', 'u', 't', '.', 't', 'x', 't'] := by decide
  rw [e1] at h1
  rw [e2] at h2
  constructor
  · unfold runCmd
    rw [h1]
    decide
  · unfold runCmd
    rw [h2]
    decide

theorem runTokens_ne_exited (tokens : List Str) (n : Nat) :
    runTokens tokens ≠ Outcome.exited n := by
  unfold runTokens
  by_cases hlen : tokens.length > 0
  · simp only [hlen, if_true]
    cases redirectScan tokens with
    | none => simp
    | some st =>
      cases func_lookup ((tokens.map some ++ [none]).getD 0 none) <;> simp
  · simp [hlen]

/-- C10, amended: `runCmd` ends the interpreter with status 0, whatever the tokenizer's
buffer holds, exactly when the command unit is the string `exit` itself; it never does so
for any other unit, in particular not when arguments follow `exit`. -/
theorem runCmd_exit_iff (init : Nat → Char) (cmd : List Char) :
    runCmd init cmd = Outcome.exited 0 ↔ cstr cmd = ['e', 'x', 'i', 't'] := by
  have hex : cstr "exit".toList = ['e', 'x', 'i', 't'] := by decide
  unfold runCmd
  by_cases h : streq "exit".toList cmd = true
  · simp only [h, if_true, true_iff]
    simp only [streq, hex, decide_eq_true_eq] at h
    exact h.symm
  · simp only [h, if_false, Bool.false_eq_true]
    have hne : cstr cmd ≠ ['e', 'x', 'i', 't'] := by
      intro hc
      apply h
      simp only [streq, hex, hc, decide_True]
    simp only [hne, iff_false]
    exact runTokens_ne_exited _ 0

/-- C10 as stated fails: the unit `exit 1` has the command name `exit` (its first token),
and `runCmd` does not end the interpreter; it tokenizes the unit and runs `exit` as an
external command in a child. -/
theorem runCmd_exit_with_argument :
    (∀ init : Nat → Char,
      explodeByTagTokens init ['e', 'x', 'i', 't', ' ', '1'] SPACE DQUOTE DQUOTE true
        = [['e', 'x', 'i', 't'], ['1']]) ∧
    (∀ init : Nat → Char,
      runCmd init ['e', 'x', 'i', 't', ' ', '1']
        = Outcome.childExec [some ['e', 'x', 'i', 't'], some ['1'], none] none none
            { stdinFile := none, stdoutFile := none }) := by
  have e1 : List.intercalate [SPACE] [['e', 'x', 'i', 't'], ['1']]
      = ['e', 'x', 'i', 't', ' ', '1'] := by decide
  have h1 : ∀ init : Nat → Char,
      explodeByTagTokens init ['e', 'x', 'i', 't', ' ', '1'] SPACE DQUOTE DQUOTE true
        = [['e', 'x', 'i', 't'], ['1']] := by
    intro init
    have h := tokens_of_words init [['e', 'x', 'i', 't'], ['1']] (by decide) (by decide)
    rw [e1] at h
    exact h
  refine ⟨h1, ?_⟩
  intro init
  unfold runCmd
  rw [h1 init]
  decide

theorem cstr_append_of_noNUL {s : List Char} (h : ∀ c ∈ s, c ≠ NUL) (r : List Char) :
    cstr (s ++ r) = s ++ cstr r := by
  induction s with
  | nil => rfl
  | cons a t ih =>
    have ha : a ≠ NUL := h a (by simp)
    have := ih (fun c hc => h c (by simp [hc]))
    simp only [cstr] at this ⊢
    simp [List.takeWhile_cons, ha, this]

theorem cstr_append_of_NUL {s : List Char} (h : NUL ∈ s) (r : List Char) :
    cstr (s ++ r) = cstr s := by
  induction s with
  | nil => simp at h
  | cons a t ih =>
    by_cases ha : a = NUL
    · simp [cstr, List.takeWhile_cons, ha]
    · have ht : NUL ∈ t := by
        rcases List.mem_cons.mp h with h1 | h1
        · exact absurd h1.symm ha
        · exact h1
      have := ih ht
      simp only [cstr] at this ⊢
      simp [List.takeWhile_cons, ha, this]

theorem absFinal_tag (i0 : Char) (toks : List Str) (acc : Str) (t1 t2 : Bool) :
    absFinal i0 ⟨toks, acc, t1⟩ = absFinal i0 ⟨toks, acc, t2⟩ := rfl

theorem fieldsBetween_eq_nil_iff (d : Char) (l : Str) :
    fieldsBetween d l = [] ↔ ∀ c ∈ l, c = d := by
  rw [← fieldsBetween_dropWhile]
  by_cases h : l.dropWhile (fun c => c == d) = []
  · rw [h, fieldsBetween_nil]
    simp only [true_iff]
    intro c hc
    have := List.dropWhile_eq_nil_iff.mp h c hc
    simpa using this
  · have hhead : ∀ c, (l.dropWhile (fun c => c == d)).head? = some c → (c == d) = false := by
      intro c hc
      have h1 := List.head_dropWhile_not (fun c => c == d) l h
      rw [List.head?_eq_head h] at hc
      simp only [Option.some.injEq] at hc
      rw [← hc]
      exact h1
    rw [fieldsBetween_token d _ h hhead]
    simp only [reduceCtorEq, false_iff]
    intro hall
    apply h
    apply List.dropWhile_eq_nil_iff.mpr
    intro c hc
    simpa using hall c hc

theorem finish_eq_empty_iff (tokens : List Str) :
    finish tokens = { tokenList := none, numTokens := 0 } ↔ tokens = [] := by
  constructor
  · intro h
    have := congrArg TokenArray.numTokens h
    simp only [finish] at this
    exact List.length_eq_zero.mp this
  · intro h
    subst h
    rfl

/-- C12, amended: for every delimiter `d`, `explode(s, d)` returns the empty sequence
(`numTokens` 0 and the null list) exactly when `s` consists of delimiter characters
only; the empty string is such a string.  A whitespace-only string with a character
that is not the delimiter is not: it yields entries. -/
theorem explode_empty_iff (s : List Char) (d : Char) (hd : d ≠ NUL) :
    explode s [d] = some { tokenList := none, numTokens := 0 } ↔ ∀ c ∈ cstr s, c = d := by
  have hdel : cstr [d] = [d] := cstr_eq_self (by simpa using hd)
  unfold explode
  rw [hdel, explodeLoop_eq d _ _ _ (Nat.lt_succ_self _)]
  simp only [List.nil_append, Option.map_some', Option.some.injEq]
  rw [finish_eq_empty_iff, List.map_eq_nil_iff, fieldsBetween_eq_nil_iff]

/-- Witness of the amended C12 on the line `;;` with delimiter `;`. -/
theorem explode_empty_iff_witness :
    ';' ≠ NUL ∧
    (explode [';', ';'] [';'] = some { tokenList := none, numTokens := 0 } ↔
      ∀ c ∈ cstr [';', ';'], c = ';') :=
  ⟨by decide, explode_empty_iff [';', ';'] ';' (by decide)⟩

/-- C12 as stated fails: the string of one space is empty after trimming, and with
delimiter `;` `explode` returns one entry, the empty string, and `numTokens` 1. -/
theorem explode_whitespace_only :
    trim [' '] = [] ∧
    explode [' '] [';'] = some { tokenList := some [[]], numTokens := 1 } := by
  decide

theorem rdropWhile_append_rtakeWhile_eq (p : Char → Bool) (l : Str) :
    l.rdropWhile p ++ l.rtakeWhile p = l := by
  unfold List.rdropWhile List.rtakeWhile
  rw [← List.reverse_append, List.takeWhile_append_dropWhile, List.reverse_reverse]

/-- C13: `trim(s)` is a contiguous part of the string: the string is `l ++ trim s ++ r`
with `l` and `r` whitespace only, `trim s` neither starts nor ends with whitespace, and
it is empty when the string is empty or all whitespace. -/
theorem trim_spec (s : List Char) :
    ∃ l r, cstr s = l ++ trim s ++ r ∧
      (∀ c ∈ l, isspace c = true) ∧ (∀ c ∈ r, isspace c = true) ∧
      (∀ c, (trim s).head? = some c → isspace c = false) ∧
      (∀ c, (trim s).getLast? = some c → isspace c = false) ∧
      ((∀ c ∈ cstr s, isspace c = true) → trim s = []) := by
  rw [trim_eq]
  refine ⟨(cstr s).takeWhile isspace,
    ((cstr s).dropWhile isspace).rtakeWhile isspace, ?_, ?_, ?_, ?_, ?_, ?_⟩
  · rw [List.append_assoc, rdropWhile_append_rtakeWhile_eq, List.takeWhile_append_dropWhile]
  · intro c hc
    exact List.mem_takeWhile_imp hc
  · intro c hc
    unfold List.rtakeWhile at hc
    rw [List.mem_reverse] at hc
    exact List.mem_takeWhile_imp hc
  · intro c hc
    by_cases hm : (cstr s).dropWhile isspace = []
    · rw [hm] at hc
      simp [List.rdropWhile] at hc
    · have h1 := List.head_dropWhile_not isspace (cstr s) hm
      have hpre : ((cstr s).dropWhile isspace).rdropWhile isspace
          <+: (cstr s).dropWhile isspace := List.rdropWhile_prefix _ _
      obtain ⟨t, ht⟩ := hpre
      generalize ((cstr s).dropWhile isspace).rdropWhile isspace = a at hc ht
      generalize (cstr s).dropWhile isspace = m at hm h1 ht
      cases a with
      | nil => simp at hc
      | cons x xs =>
        simp only [List.head?_cons, Option.some.injEq] at hc
        subst hc
        subst ht
        simpa using h1
  · intro c hc
    by_cases hl : ((cstr s).dropWhile isspace).rdropWhile isspace = []
    · rw [hl] at hc
      simp at hc
    · have := List.rdropWhile_last_not isspace _ hl
      rw [List.getLast?_eq_getLast _ hl] at hc
      simp only [Option.some.injEq] at hc
      rw [← hc]
      simpa using this
  · intro hall
    rw [List.dropWhile_eq_nil_iff.mpr hall]
    simp [List.rdropWhile]

/-- C14: `func_lookup` returns NULL for a null name; for a name it returns `builtin_cd`,
`builtin_today` or `builtin_help` when the name is exactly `cd`, `today` or `help`, and
NULL for every other name. -/
theorem func_lookup_spec :
    func_lookup none = none ∧
    ∀ n : List Char,
      func_lookup (some n) =
        if cstr n = ['c', 'd'] then some Builtin.builtin_cd
        else if cstr n = ['t', 'o', 'd', 'a', 'y'] then some Builtin.builtin_today
        else if cstr n = ['h', 'e', 'l', 'p'] then some Builtin.builtin_help
        else none := by
  refine ⟨rfl, ?_⟩
  intro n
  have h1 : cstr "cd".toList = ['c', 'd'] := by decide
  have h2 : cstr "today".toList = ['t', 'o', 'd', 'a', 'y'] := by decide
  have h3 : cstr "help".toList = ['h', 'e', 'l', 'p'] := by decide
  simp only [func_lookup, func_table, List.find?_cons, List.find?_nil, streq, h1, h2, h3]
  by_cases c1 : cstr n = ['c', 'd']
  · simp [c1]
  · by_cases c2 : cstr n = ['t', 'o', 'd', 'a', 'y']
    · simp [c2]
    · by_cases c3 : cstr n = ['h', 'e', 'l', 'p']
      · simp [c3]
      · simp [c1, c2, c3]

/-- C15, amended: for a non-empty string `x` without tag character, the fully quoted
string is tokenized into the single token `trim x`: every character between the tags is
kept, separators included, except the whitespace at the start and at the end of `x`,
which `trim` removes.  The token is `x` itself when `x` neither starts nor ends with
whitespace. -/
theorem explodeByTag_fully_quoted (init : Nat → Char) (x : Str)
    (hne : x ≠ []) (hq : ∀ c ∈ x, c ≠ DQUOTE) (hnul : ∀ c ∈ x, c ≠ NUL) :
    explodeByTag init ([DQUOTE] ++ x ++ [DQUOTE]) SPACE DQUOTE DQUOTE true
      = { tokenList := some [trim x], numTokens := 1 } ∧
    ((∀ c, x.head? = some c → isspace c = false) →
      (∀ c, x.getLast? = some c → isspace c = false) →
      explodeByTag init ([DQUOTE] ++ x ++ [DQUOTE]) SPACE DQUOTE DQUOTE true
        = { tokenList := some [x], numTokens := 1 }) := by
  have hall : ∀ c ∈ [DQUOTE] ++ x ++ [DQUOTE], c ≠ NUL := by
    intro c hc
    simp only [List.mem_append, List.mem_singleton] at hc
    rcases hc with (h | h) | h
    · exact h ▸ DQUOTE_ne_NUL
    · exact hnul c h
    · exact h ▸ DQUOTE_ne_NUL
  have main : explodeByTag init ([DQUOTE] ++ x ++ [DQUOTE]) SPACE DQUOTE DQUOTE true
      = { tokenList := some [trim x], numTokens := 1 } := by
    unfold explodeByTag
    rw [explodeByTagTokens_eq_abs, cstr_eq_self hall]
    simp only [List.foldl_append, List.foldl_cons, List.foldl_nil]
    rw [step_open, foldl_intag x hq, step_close]
    simp [absFinal, hne, finish]
  refine ⟨main, ?_⟩
  intro h1 h2
  rw [main, trim_eq_self hnul h1 h2]

/-- Witness of the amended C15 on the quoted text ` a b` (leading space). -/
theorem explodeByTag_fully_quoted_witness :
    [' ', 'a', ' ', 'b'] ≠ [] ∧ (∀ c ∈ [' ', 'a', ' ', 'b'], c ≠ DQUOTE) ∧
    (∀ c ∈ [' ', 'a', ' ', 'b'], c ≠ NUL) ∧
    (explodeByTag (fun _ => 'z') ([DQUOTE] ++ [' ', 'a', ' ', 'b'] ++ [DQUOTE])
        SPACE DQUOTE DQUOTE true
      = { tokenList := some [trim [' ', 'a', ' ', 'b']], numTokens := 1 } ∧
    ((∀ c, [' ', 'a', ' ', 'b'].head? = some c → isspace c = false) →
      (∀ c, [' ', 'a', ' ', 'b'].getLast? = some c → isspace c = false) →
      explodeByTag (fun _ => 'z') ([DQUOTE] ++ [' ', 'a', ' ', 'b'] ++ [DQUOTE])
          SPACE DQUOTE DQUOTE true
        = { tokenList := some [[' ', 'a', ' ', 'b']], numTokens := 1 })) :=
  ⟨by decide, by decide, by decide,
    explodeByTag_fully_quoted (fun _ => 'z') [' ', 'a', ' ', 'b']
      (by decide) (by decide) (by decide)⟩

/-- C15 as stated fails: for the quoted text ` a` (a space, then a) the single token is
`a`; the leading space between the tags is not preserved. -/
theorem explodeByTag_quoted_trimmed :
    [' ', 'a'] ≠ [] ∧ (∀ c ∈ [' ', 'a'], c ≠ DQUOTE) ∧
    (∀ init : Nat → Char,
      explodeByTag init ([DQUOTE] ++ [' ', 'a'] ++ [DQUOTE]) SPACE DQUOTE DQUOTE true
        = { tokenList := some [['a']], numTokens := 1 }) := by
  refine ⟨by decide, by decide, ?_⟩
  intro init
  unfold explodeByTag
  rw [explodeByTagTokens_eq_abs]
  rfl

/-- While fewer than 768 characters are stored, the capacity is the next multiple of
`CHUNK_SIZE` above `pos`, and ordinary characters are stored one by one. -/
theorem readlineLoop_append (chars : List Char) :
    ∀ (line tail : List Char), (∀ c ∈ chars, c ≠ '\n' ∧ c ≠ EOFCHAR) →
      line.length + chars.length ≤ 768 →
      readlineLoop (chars ++ tail) line (256 * (line.length / 256 + 1))
        = readlineLoop tail (line ++ chars)
            (256 * ((line.length + chars.length) / 256 + 1)) := by
  induction chars with
  | nil => intro line tail _ _; simp
  | cons c cs ih =>
    intro line tail hc hlen
    have h1 := (hc c (by simp)).1
    have h2 := (hc c (by simp)).2
    simp only [List.length_cons] at hlen
    have hlt : 256 * (line.length / 256 + 1) < CHUNK_SIZE * MAX_CHUNKS := by
      simp only [CHUNK_SIZE, MAX_CHUNKS]
      omega
    have hbuf : (if line.length + 1 = 256 * (line.length / 256 + 1)
        then 256 * (line.length / 256 + 1) + CHUNK_SIZE else 256 * (line.length / 256 + 1))
        = 256 * ((line ++ [c]).length / 256 + 1) := by
      simp only [CHUNK_SIZE, List.length_append, List.length_singleton]
      split <;> omega
    simp only [List.cons_append, readlineLoop, ne_eq, h1, not_false_eq_true, hlt, and_self,
      if_true, h2, if_false, List.append_eq]
    rw [hbuf, ih (line ++ [c]) tail (fun x hx => hc x (by simp [hx]))
      (by simp only [List.length_append, List.length_singleton]; omega)]
    have e1 : (line ++ [c]) ++ cs = line ++ c :: cs := by simp
    have e2 : (line ++ [c]).length + cs.length = line.length + (c :: cs).length := by
      simp only [List.length_append, List.length_cons, List.length_nil]
      omega
    rw [e1, e2]

theorem readline_short (chars rest : List Char) (hc : ∀ c ∈ chars, c ≠ '\n' ∧ c ≠ EOFCHAR)
    (hlen : chars.length ≤ 768) :
    readline (chars ++ '\n' :: rest)
      = { ret := chars.length, line := chars, rest := rest } := by
  have h := readlineLoop_append chars [] ('\n' :: rest) hc (by simpa using hlen)
  simp only [List.length_nil, Nat.zero_div, Nat.zero_add, Nat.mul_one, List.nil_append] at h
  unfold readline
  simp only [CHUNK_SIZE]
  rw [h]
  simp [readlineLoop]

theorem readline_long (chars rest : List Char) (hc : ∀ c ∈ chars, c ≠ '\n' ∧ c ≠ EOFCHAR)
    (hlen : 768 < chars.length) :
    (readline (chars ++ '\n' :: rest)).ret = 768 ∧
    (readline (chars ++ '\n' :: rest)).line = chars.take 768 := by
  have hsplit : chars = chars.take 768 ++ chars.drop 768 := (List.take_append_drop 768 chars).symm
  have hdrop : chars.drop 768 ≠ [] := by
    intro h
    have := congrArg List.length h
    simp only [List.length_drop, List.length_nil] at this
    omega
  obtain ⟨c, more, hcm⟩ := List.exists_cons_of_ne_nil hdrop
  have htake : (chars.take 768).length = 768 := by
    rw [List.length_take]
    omega
  have h := readlineLoop_append (chars.take 768) [] (c :: more ++ '\n' :: rest)
    (fun x hx => hc x (List.mem_of_mem_take hx)) (by simp only [List.length_nil]; omega)
  simp only [List.length_nil, Nat.zero_div, Nat.zero_add, Nat.mul_one, List.nil_append,
    htake] at h
  have e : chars ++ '\n' :: rest = chars.take 768 ++ (c :: more ++ '\n' :: rest) := by
    rw [← hcm, ← List.append_assoc, List.take_append_drop]
  unfold readline
  simp only [CHUNK_SIZE]
  rw [e, h]
  simp [readlineLoop, CHUNK_SIZE, MAX_CHUNKS, htake]

/-- C16, amended: for a line of at most 768 characters, none of them a newline and none
of them the byte 255 (`EOFCHAR`, which the signed `char read` cannot tell from `EOF`),
followed by a newline, `readline` returns the length, stores exactly these characters
and consumes the input up to and including the newline.  A longer line of such
characters is cut: `readline` returns 768 and stores the first 768 characters. -/
theorem readline_line (chars rest : List Char)
    (hc : ∀ c ∈ chars, c ≠ '\n' ∧ c ≠ EOFCHAR) :
    (chars.length ≤ 768 →
      readline (chars ++ '\n' :: rest)
        = { ret := chars.length, line := chars, rest := rest }) ∧
    (768 < chars.length →
      (readline (chars ++ '\n' :: rest)).ret = 768 ∧
      (readline (chars ++ '\n' :: rest)).line = chars.take 768) :=
  ⟨readline_short chars rest hc, readline_long chars rest hc⟩

/-- Witness of the amended C16 on the input `ls`, newline, `pwd`. -/
theorem readline_line_witness :
    (∀ c ∈ ['l', 's'], c ≠ '\n' ∧ c ≠ EOFCHAR) ∧
    ((['l', 's'].length ≤ 768 →
      readline (['l', 's'] ++ '\n' :: ['p', 'w', 'd'])
        = { ret := (['l', 's'].length : Nat), line := ['l', 's'], rest := ['p', 'w', 'd'] }) ∧
    (768 < ['l', 's'].length →
      (readline (['l', 's'] ++ '\n' :: ['p', 'w', 'd'])).ret = 768 ∧
      (readline (['l', 's'] ++ '\n' :: ['p', 'w', 'd'])).line = ['l', 's'].take 768)) :=
  ⟨by decide, readline_line ['l', 's'] ['p', 'w', 'd'] (by decide)⟩

/-- C16 as stated fails: on a line of 769 letters `a` followed by a newline `readline`
returns 768, not 769.  It also fails on a short line that holds the byte 255, a
character that is neither a newline nor the end of the input: on `ab`, byte 255, `cd`,
newline, `readline` returns -1 after storing `ab`. -/
theorem readline_cuts_long_line :
    ((∀ c ∈ List.replicate 769 'a', c ≠ '\n' ∧ c ≠ EOFCHAR) ∧
      (List.replicate 769 'a').length = 769 ∧
      (readline (List.replicate 769 'a' ++ ['\n'])).ret = 768) ∧
    ((∀ c ∈ ['a', 'b', EOFCHAR, 'c', 'd'], c ≠ '\n') ∧
      readline (['a', 'b', EOFCHAR, 'c', 'd'] ++ ['\n'])
        = { ret := -1, line := ['a', 'b'], rest := ['c', 'd', '\n'] }) := by
  have hc : ∀ c ∈ List.replicate 769 'a', c ≠ '\n' ∧ c ≠ EOFCHAR := by
    intro c hc
    rw [List.eq_of_mem_replicate hc]
    decide
  exact ⟨⟨hc, List.length_replicate _ _,
    (readline_long (List.replicate 769 'a') [] hc
      (by rw [List.length_replicate]; decide)).1⟩, by decide, by decide⟩

theorem explodeStep_pos_lt (sep o cl : Char) (rm : Bool) (st : TokState) (c : Char)
    (h : st.pos < st.bufSize) :
    (explodeStep sep o cl rm st c).pos < (explodeStep sep o cl rm st c).bufSize := by
  have hc : 0 < CHUNK_SIZE := by decide
  have key : ∀ st1 : TokState, st1.pos ≤ st1.bufSize →
      (if st1.pos = st1.bufSize then { st1 with bufSize := st1.bufSize + CHUNK_SIZE }
        else st1).pos
      < (if st1.pos = st1.bufSize then { st1 with bufSize := st1.bufSize + CHUNK_SIZE }
        else st1).bufSize := by
    intro st1 h1
    split
    · simp only
      omega
    · omega
  unfold explodeStep
  apply key
  cases st.bTag <;> simp only [Bool.not_false, Bool.not_true, if_true, if_false,
    Bool.false_eq_true]
  · by_cases h1 : c = o
    · cases rm <;> simp [h1, TokState.append] <;> omega
    · by_cases h2 : c = sep
      · subst h2
        simp [h1, TokState.flush]
      · simp [h1, h2, TokState.append]
        omega
  · by_cases h1 : c = cl
    · cases rm <;> simp [h1, TokState.append] <;> omega
    · simp [h1, TokState.append]
      omega

theorem stepWrites_spec (sep o cl : Char) (rm : Bool) (st : TokState) (c : Char)
    (h : st.pos < st.bufSize) :
    ∀ w ∈ stepWrites sep o cl rm st c,
      (∀ p b, w = BufWrite.store p b → p < b) ∧
      (∀ n b, w = BufWrite.clear n b → n = b + 1) := by
  intro w hw
  unfold stepWrites at hw
  have hstore : ∀ w, w = BufWrite.store st.pos st.bufSize →
      (∀ p b, w = BufWrite.store p b → p < b) ∧
      (∀ n b, w = BufWrite.clear n b → n = b + 1) := by
    intro w hw
    subst hw
    constructor
    · intro p b hpb
      injection hpb with h1 h2
      omega
    · intro n b hnb
      cases hnb
  have hclear : ∀ w, w = BufWrite.clear (st.bufSize + 1) st.bufSize →
      (∀ p b, w = BufWrite.store p b → p < b) ∧
      (∀ n b, w = BufWrite.clear n b → n = b + 1) := by
    intro w hw
    subst hw
    constructor
    · intro p b hpb
      cases hpb
    · intro n b hnb
      injection hnb with h1 h2
      omega
  split at hw
  · split at hw
    · split at hw
      · exact hstore w (by simpa using hw)
      · simp at hw
    · split at hw
      · simp only [List.mem_cons, List.mem_singleton, List.not_mem_nil, or_false] at hw
        rcases hw with hw | hw
        · exact hstore w hw
        · exact hclear w hw
      · exact hstore w (by simpa using hw)
  · split at hw
    · split at hw
      · exact hstore w (by simpa using hw)
      · simp at hw
    · exact hstore w (by simpa using hw)

theorem loopWrites_spec (sep o cl : Char) (rm : Bool) (l : List Char) :
    ∀ st : TokState, st.pos < st.bufSize →
      ∀ w ∈ loopWrites sep o cl rm l st,
        (∀ p b, w = BufWrite.store p b → p < b) ∧
        (∀ n b, w = BufWrite.clear n b → n = b + 1) := by
  induction l with
  | nil => intro st _ w hw; simp [loopWrites] at hw
  | cons c t ih =>
    intro st h w hw
    simp only [loopWrites, List.mem_append] at hw
    rcases hw with hw | hw
    · exact stepWrites_spec sep o cl rm st c h w hw
    · exact ih _ (explodeStep_pos_lt sep o cl rm st c h) w hw

/-- C17 fails on the code.  For every input each store of a character or terminator is at
an offset `pos` below the allocated size, but each clearing after a separator flush
covers `bufSize + 1` bytes of a buffer of `bufSize` bytes: it writes the byte at offset
`bufSize`.  On `a b` the writes are: `a` at 0, the terminator at 1, the clearing of 257
bytes of a 256 byte buffer, `b` at 0, and the last terminator at 1 of 2 bytes. -/
theorem explodeByTag_clear_overruns :
    ∀ (init : Nat → Char),
      (∀ (s : List Char) (sep o cl : Char) (rm : Bool),
        ∀ w ∈ explodeWrites init s sep o cl rm,
          (∀ p b, w = BufWrite.store p b → p < b) ∧
          (∀ n b, w = BufWrite.clear n b → n = b + 1)) ∧
      explodeWrites init ['a', ' ', 'b'] SPACE DQUOTE DQUOTE true
        = [BufWrite.store 0 256, BufWrite.store 1 256, BufWrite.clear 257 256,
           BufWrite.store 0 256, BufWrite.store 1 2] ∧
      (BufWrite.clear 257 256).inBounds = false := by
  intro init
  refine ⟨?_, ?_, by decide⟩
  · intro s sep o cl rm w hw
    unfold explodeWrites at hw
    simp only [List.mem_append] at hw
    rcases hw with hw | hw
    · exact loopWrites_spec sep o cl rm (cstr s) (tokInit init) (by simp [tokInit, CHUNK_SIZE])
        w hw
    · split at hw
      · simp only [List.mem_singleton] at hw
        subst hw
        constructor
        · intro p b hpb
          injection hpb with h1 h2
          omega
        · intro n b hnb
          cases hnb
      · simp at hw
  · rfl

/-- C20 fails on the code: the result depends on the initial content of `buffer[0]`, and
on nothing else of the initial content.  On the empty string, and on the empty quoted
span, a buffer that starts with a zero byte gives no token and a buffer that starts with
any other byte gives one token, the empty string. -/
theorem explodeByTag_reads_uninitialised :
    (∀ (init1 init2 : Nat → Char) (s : List Char) (sep o cl : Char) (rm : Bool),
      init1 0 = init2 0 →
      explodeByTag init1 s sep o cl rm = explodeByTag init2 s sep o cl rm) ∧
    explodeByTag (fun _ => NUL) [] SPACE DQUOTE DQUOTE true
      = { tokenList := none, numTokens := 0 } ∧
    explodeByTag (fun _ => 'x') [] SPACE DQUOTE DQUOTE true
      = { tokenList := some [[]], numTokens := 1 } ∧
    explodeByTag (fun _ => NUL) [DQUOTE, DQUOTE] SPACE DQUOTE DQUOTE true
      = { tokenList := none, numTokens := 0 } ∧
    explodeByTag (fun _ => 'x') [DQUOTE, DQUOTE] SPACE DQUOTE DQUOTE true
      = { tokenList := some [[]], numTokens := 1 } := by
  refine ⟨?_, by decide, by decide, by decide, by decide⟩
  intro init1 init2 s sep o cl rm h
  unfold explodeByTag
  rw [explodeByTagTokens_eq_abs, explodeByTagTokens_eq_abs, h]

theorem runQueue_single_word (init : Nat → Char) (w : Str) (hw : Word w)
    (h : runTokens [w] ≠ Outcome.undefinedBehaviour)
    (hx : streq "exit".toList w = false) : runQueue init [w] = true := by
  have ht := tokens_of_words init [w] (by simp) (by simpa using hw)
  have hi : List.intercalate [SPACE] [w] = w := by simp [List.intercalate]
  rw [hi] at ht
  have hr : runCmd init w = runTokens [w] := by
    unfold runCmd
    rw [hx, ht]
    simp
  have hne := runTokens_ne_exited [w]
  unfold runQueue
  rw [hr]
  split
  · rename_i n heq
    exact absurd heq (hne n)
  · rename_i heq
    exact absurd heq h
  · rfl

/-- C18 fails on the code: on the batch file of the two lines `a` and `bcd`, the first
line leaves `pOut` reallocated with 2 bytes while `bufSize` stays 256, and the second
line stores its third character at offset 2 of these 2 bytes. -/
theorem runfile_store_past_shrunk_buffer :
    ∀ init : Nat → Char,
      runfile init ['a', '\n', 'b', 'c', 'd', '\n']
        = [BufWrite.store 0 256, BufWrite.store 1 2, BufWrite.clear 2 2,
           BufWrite.store 0 2, BufWrite.store 1 2, BufWrite.store 2 2,
           BufWrite.store 3 4, BufWrite.clear 4 4] ∧
      (BufWrite.store 2 2).inBounds = false := by
  intro init
  refine ⟨?_, by decide⟩
  have e1 : explode ['a'] [';'] = some { tokenList := some [['a']], numTokens := 1 } := by
    decide
  have e2 : explode ['b', 'c', 'd'] [';']
      = some { tokenList := some [['b', 'c', 'd']], numTokens := 1 } := by
    decide
  have q1 : runQueue init [['a']] = true :=
    runQueue_single_word init ['a'] (by decide) (by decide) (by decide)
  have q2 : runQueue init [['b', 'c', 'd']] = true :=
    runQueue_single_word init ['b', 'c', 'd'] (by decide) (by decide) (by decide)
  have c1 : ('a' = EOFCHAR) = False := by decide
  have c2 : ('b' = EOFCHAR) = False := by decide
  have c3 : ('c' = EOFCHAR) = False := by decide
  have c4 : ('d' = EOFCHAR) = False := by decide
  have c5 : ('\n' = EOFCHAR) = False := by decide
  have d1 : ('a' = '\n') = False := by decide
  have d2 : ('b' = '\n') = False := by decide
  have d3 : ('c' = '\n') = False := by decide
  have d4 : ('d' = '\n') = False := by decide
  simp only [runfile, runfileLoop, c1, c2, c3, c4, c5, d1, d2, d3, d4, if_false, if_true,
    List.length_nil, List.nil_append, List.length_cons, List.length_append, e1, e2,
    Option.getD_some, q1, q2, CHUNK_SIZE, List.cons_append, Nat.zero_add, Nat.reduceAdd,
    Nat.reduceEqDiff, List.singleton_append]

theorem getElem?_append_cons_length (pre : List Str) (a : Str) (tl : List Str) :
    (pre ++ a :: tl)[pre.length]? = some a := by
  induction pre with
  | nil => simp
  | cons x t ih => simpa using ih

theorem getElem?_append_cons_length_succ (pre : List Str) (a b : Str) (tl : List Str) :
    (pre ++ a :: b :: tl)[pre.length + 1]? = some b := by
  have e : pre ++ a :: b :: tl = (pre ++ [a]) ++ b :: tl := by simp
  have l : pre.length + 1 = (pre ++ [a]).length := by simp
  rw [e, l, getElem?_append_cons_length]

/-- From index `pre.length` on, with the tokens `rest` still in place there, every access
of the scan is safe for the whole token sequence. -/
theorem scanAccesses_safe :
    ∀ (fuel : Nat) (rest orig : List Str) (pre : List (Option Str)) (i o : Option Str),
      Scannable rest = true → orig.length = pre.length →
      ∀ a ∈ scanAccesses (pre.length + rest.length) fuel pre.length
          { args := pre ++ rest.map some ++ [none], inFile := i, outFile := o },
        a.safe (orig ++ rest) := by
  intro fuel
  induction fuel using Nat.strong_induction_on with
  | _ fuel ih =>
    intro rest orig pre i o hsc hlen a ha
    cases fuel with
    | zero => simp [scanAccesses] at ha
    | succ n =>
      cases rest with
      | nil => simp [scanAccesses] at ha
      | cons t rest1 =>
        have htk : pre.length < pre.length + (t :: rest1).length := by simp
        unfold scanAccesses at ha
        simp only [htk, if_true] at ha
        have hget : (pre ++ List.map some (t :: rest1) ++ [none]).getD pre.length none
            = some t := by
          simp only [List.map_cons, List.append_assoc, List.cons_append]
          exact getD_append_length _ _ _
        rw [hget] at ha
        simp only at ha
        have hread0 : (ArgAccess.read pre.length (some t)).safe (orig ++ t :: rest1) := by
          refine ⟨by simp [hlen], t, rfl, ?_⟩
          rw [← hlen]
          exact getElem?_append_cons_length _ _ _
        rcases List.mem_cons.mp ha with ha | ha
        · subst ha
          exact hread0
        · cases rest1 with
          | nil =>
            have hnop : isOp t = false := by simpa [Scannable] using hsc
            simp only [isOp, Bool.or_eq_false_iff] at hnop
            simp only [hnop.1, hnop.2, if_false, Bool.false_eq_true] at ha
            have := ih n (Nat.lt_succ_self n) [] (orig ++ [t]) (pre ++ [some t]) i o rfl
              (by simp [hlen]) a
              (by simpa using ha)
            simpa using this
          | cons f rest2 =>
            have hget1 : (pre ++ List.map some (t :: f :: rest2) ++ [none]).getD
                (pre.length + 1) none = some f := by
              simp only [List.map_cons, List.append_assoc, List.cons_append]
              exact getD_append_length_succ _ _ _ _
            have hset : ((pre ++ List.map some (t :: f :: rest2) ++ [none]).set pre.length
                none).set (pre.length + 1) none
                = (pre ++ [none, none]) ++ List.map some rest2 ++ [none] := by
              simp only [List.map_cons, List.append_assoc, List.cons_append]
              rw [set_append_length, set_append_length_succ]
              simp
            have hidx : pre.length + 1 + 1
                = (pre ++ [none, none] : List (Option Str)).length := by simp
            have hcnt : pre.length + (t :: f :: rest2).length
                = (pre ++ [none, none] : List (Option Str)).length + rest2.length := by
              simp
              omega
            have horig : orig ++ t :: f :: rest2 = (orig ++ [t, f]) ++ rest2 := by simp
            have hread1 : (ArgAccess.read (pre.length + 1) (some f)).safe
                (orig ++ t :: f :: rest2) := by
              refine ⟨by simp [hlen], f, rfl, ?_⟩
              rw [← hlen]
              exact getElem?_append_cons_length_succ _ _ _ _
            have hw0 : (ArgAccess.write pre.length).safe (orig ++ t :: f :: rest2) := by
              show pre.length < _
              simp [hlen]
            have hw1 : (ArgAccess.write (pre.length + 1)).safe (orig ++ t :: f :: rest2) := by
              show pre.length + 1 < _
              simp [hlen]
            have hopcase : ∀ (i' o' : Option Str), Scannable rest2 = true →
                a ∈ ArgAccess.read (pre.length + 1) (some f) ::
                  ArgAccess.write pre.length :: ArgAccess.write (pre.length + 1) ::
                  scanAccesses ((pre ++ [none, none] : List (Option Str)).length + rest2.length)
                    n (pre ++ [none, none] : List (Option Str)).length
                    { args := (pre ++ [none, none]) ++ List.map some rest2 ++ [none],
                      inFile := i', outFile := o' } →
                a.safe (orig ++ t :: f :: rest2) := by
              intro i' o' hsc2 hmem
              simp only [List.mem_cons] at hmem
              rcases hmem with h | h | h | h
              · exact h ▸ hread1
              · exact h ▸ hw0
              · exact h ▸ hw1
              · rw [horig]
                exact ih n (Nat.lt_succ_self n) rest2 (orig ++ [t, f]) (pre ++ [none, none])
                  i' o' hsc2 (by simp [hlen]) a h
            rw [hget1, hset, hidx, hcnt] at ha
            simp only at ha
            by_cases h1 : streq LT t = true
            · have hop : isOp t = true := by simp [isOp, h1]
              have hsc2 : Scannable rest2 = true := by simpa [Scannable, hop] using hsc
              simp only [h1, if_true] at ha
              exact hopcase _ _ hsc2 ha
            · by_cases h2 : streq GT t = true
              · have hop : isOp t = true := by simp [isOp, h2]
                have hsc2 : Scannable rest2 = true := by simpa [Scannable, hop] using hsc
                simp only [h1, h2, if_true, if_false, Bool.false_eq_true] at ha
                exact hopcase _ _ hsc2 ha
              · have hop : isOp t = false := by simp [isOp, h1, h2]
                have hsc2 : Scannable (f :: rest2) = true := by
                  simpa [Scannable, hop] using hsc
                simp only [h1, h2, if_false, Bool.false_eq_true] at ha
                have e1 : (pre ++ [none, none] : List (Option Str)).length + rest2.length
                    = (pre ++ [some t]).length + (f :: rest2).length := by
                  simp
                  omega
                have e2 : pre.length + 1 = (pre ++ [some t]).length := by simp
                have e3 : (pre ++ [none, none]) ++ List.map some rest2 ++ [none]
                    = (pre ++ [none, none]) ++ List.map some rest2 ++ [none] := rfl
                have horig2 : orig ++ t :: f :: rest2 = (orig ++ [t]) ++ f :: rest2 := by simp
                rw [horig2]
                refine ih n (Nat.lt_succ_self n) (f :: rest2) (orig ++ [t]) (pre ++ [some t])
                  i o hsc2 (by simp [hlen]) a ?_
                rw [← e1, ← e2]
                simpa using ha

theorem scanAbs_length : ∀ (l : List Str) (i o : Option Str)
    (r : List (Option Str) × Option Str × Option Str),
    scanAbs l i o = some r → r.1.length = l.length := by
  intro l
  induction l using list_two_step with
  | h0 =>
    intro i o r h
    simp only [scanAbs, Option.some.injEq] at h
    subst h
    rfl
  | h1 t =>
    intro i o r h
    simp only [scanAbs] at h
    split at h
    · simp at h
    · split at h
      · simp at h
      · simp only [Option.some.injEq] at h
        subst h
        rfl
  | h2 t f rest ih1 ih2 =>
    intro i o r h
    cases hop : isOp t
    · rw [scanAbs_cons_notOp t _ i o hop] at h
      cases hs : scanAbs (f :: rest) i o with
      | none => simp [hs] at h
      | some r' =>
        rw [hs] at h
        simp only [Option.map_some', Option.some.injEq] at h
        subst h
        simp [ih2 i o r' hs]
    · rw [scanAbs_cons_op t f rest i o hop] at h
      cases hs : scanAbs rest (if streq LT t then some f else i)
          (if streq LT t then o else some f) with
      | none => simp [hs] at h
      | some r' =>
        rw [hs] at h
        simp only [Option.map_some', Option.some.injEq] at h
        subst h
        simp [ih1 _ _ r' hs]

theorem getElem?_append_length_none (pre : List (Option Str)) :
    (pre ++ [none])[pre.length]? = some none := by
  induction pre with
  | nil => simp
  | cons x t ih => simp

/-- C19: when each operator the scanner meets is followed by another token, every access
of the redirect scan to `args` has an index below `tokenCount`, every entry it reads (for
the comparison, and as a filename) is the token that the tokenizer put there, never a
null, and the scan ends with the null sentinel still at index `tokenCount`. -/
theorem redirectScan_accesses_safe (tokens : List Str) (h : Scannable tokens = true) :
    (∀ a ∈ redirectAccesses tokens, a.safe tokens) ∧
    ∃ st, redirectScan tokens = some st ∧
      st.args.length = tokens.length + 1 ∧ st.args[tokens.length]? = some none := by
  constructor
  · intro a ha
    have := scanAccesses_safe tokens.length tokens [] [] none none h rfl a
      (by simpa [redirectAccesses] using ha)
    simp only [List.nil_append] at this
    exact this
  · obtain ⟨r, hr, _⟩ := scanAbs_argv tokens none none h
    have hlen := scanAbs_length tokens none none r hr
    refine ⟨{ args := r.1 ++ [none], inFile := r.2.1, outFile := r.2.2 }, ?_, ?_, ?_⟩
    · rw [redirectScan_eq_scanAbs, hr]
      rfl
    · simp [hlen]
    · rw [← hlen]
      exact getElem?_append_length_none r.1

/-- Witness of C19 on the tokens `cat`, `<`, `in`, `>`, `out`. -/
theorem redirectScan_accesses_safe_witness :
    Scannable [['c', 'a', 't'], LT, ['i', 'n'], GT, ['o', 'u', 't']] = true ∧
    ((∀ a ∈ redirectAccesses [['c', 'a', 't'], LT, ['i', 'n'], GT, ['o', 'u', 't']],
        a.safe [['c', 'a', 't'], LT, ['i', 'n'], GT, ['o', 'u', 't']]) ∧
      ∃ st, redirectScan [['c', 'a', 't'], LT, ['i', 'n'], GT, ['o', 'u', 't']] = some st ∧
        st.args.length = [['c', 'a', 't'], LT, ['i', 'n'], GT, ['o', 'u', 't']].length + 1 ∧
        st.args[[['c', 'a', 't'], LT, ['i', 'n'], GT, ['o', 'u', 't']].length]? = some none) :=
  ⟨by decide,
    redirectScan_accesses_safe [['c', 'a', 't'], LT, ['i', 'n'], GT, ['o', 'u', 't']]
      (by decide)⟩

end MSH
